import Mathlib

/-!
Subsequence miner: trie, enumerator and mining engine.

A shallow embedding of `src/subsequence_miner.cpp`.

Conventions of the embedding.

* C++ `int` values are unbounded `Int`s; loop counters that never go below zero
  are `Nat`s.  Signed overflow of the counters is not modelled.
* `unordered_map<string, shared_ptr<TrieNode>>` is an association list.  A new
  key is appended at the end, `find` returns the first entry with the key.  The
  iteration order of an `unordered_map` is unspecified in C++; no statement below
  is about the order in which children are visited.
* `std::sort` promises a permutation ordered by the comparator and nothing about
  the order of equal elements.  It is modelled by insertion sort; the theorems
  use only that its result is a permutation ordered by the comparator.
* `TrieNode::parent` is written once when a node is created and never read; a
  tree value cannot point back to its parent, so the field is left out.
* `double support` is the exact rational quotient; rounding is not modelled.
* `MiningStatistics::mining_time` is wall-clock time and is left out, as is
  `pattern_cache`, which no method reads or writes.
* An operation that cannot return (a `vector` range constructor called with a
  negative length, `vector::resize` with a negative size) yields `Except.error`.
-/

namespace SubsequenceMiner

/-! ## Data model -/

/-- Position record `struct Position`. -/
structure Position where
  sequence_id : Int
  position : Int
deriving DecidableEq, Repr

/-- Pattern record `struct PatternInfo`. -/
structure PatternInfo where
  pattern : List String
  frequency : Int
  length : Int
  support : ℚ
  pattern_string : String
  is_noncontiguous : Bool
  pattern_type : String
deriving DecidableEq

/-- Trie node `class TrieNode`; `children` is the association list standing for the
`unordered_map`. -/
inductive TrieNode where
  | mk (children : List (String × TrieNode)) (is_end_of_pattern : Bool) (frequency : Int)
      (positions : List Position) (character : String) (is_noncontiguous : Bool) : TrieNode

namespace TrieNode

/-- Field `children`. -/
def children : TrieNode → List (String × TrieNode)
  | mk cs _ _ _ _ _ => cs

/-- Field `is_end_of_pattern`. -/
def is_end_of_pattern : TrieNode → Bool
  | mk _ e _ _ _ _ => e

/-- Field `frequency`. -/
def frequency : TrieNode → Int
  | mk _ _ f _ _ _ => f

/-- Field `positions`. -/
def positions : TrieNode → List Position
  | mk _ _ _ ps _ _ => ps

/-- Field `character`. -/
def character : TrieNode → String
  | mk _ _ _ _ c _ => c

/-- Field `is_noncontiguous`. -/
def is_noncontiguous : TrieNode → Bool
  | mk _ _ _ _ _ nc => nc

/-- Default constructor `TrieNode()`. -/
def empty : TrieNode := mk [] false 0 [] "" false

/-- Node built by `make_shared<TrieNode>()` followed by `character = ch`
(lines 101-103). -/
def new_child (ch : String) : TrieNode := mk [] false 0 [] ch false

/-- Method `add_position`: `positions.emplace_back(sequence_id, position)`. -/
def add_position : TrieNode → Int → Int → TrieNode
  | mk cs e f ps c nc, sequence_id, position => mk cs e f (ps ++ [⟨sequence_id, position⟩]) c nc

end TrieNode

/-- Lookup `children.find(ch)`: the child stored under `ch`, if any. -/
def find_child : List (String × TrieNode) → String → Option TrieNode
  | [], _ => none
  | (k, v) :: rest, ch => if k = ch then some v else find_child rest ch

/-- Assignment `children[ch] = v`: overwrite the entry of `ch`, or add one. -/
def set_child : List (String × TrieNode) → String → TrieNode → List (String × TrieNode)
  | [], ch, v => [(ch, v)]
  | (k, w) :: rest, ch, v => if k = ch then (k, v) :: rest else (k, w) :: set_child rest ch v

namespace TrieNode

/-- Body of `insert_pattern` from the node reached so far (lines 97-116): the loop
over the remaining elements, then the update of the terminal node.  The `Bool` says
whether the terminal node's end-of-pattern flag was unset before (the condition of
`pattern_count++`).  `pos` is `start_pos + i`. -/
def insert_path : TrieNode → List String → Int → Int → Bool → TrieNode × Bool
  | mk cs e f ps c _, [], _, _, flag => (mk cs true (f + 1) ps c flag, !e)
  | mk cs e f ps c nc, ch :: rest, sequence_id, pos, flag =>
    let child := match find_child cs ch with
      | some n => n
      | none => new_child ch
    let r := insert_path (child.add_position sequence_id pos) rest sequence_id (pos + 1) flag
    (mk (set_child cs ch r.1) e f ps c nc, r.2)

/-- The loop of `search_pattern` (lines 122-127): follow the labels from a node. -/
def walk : TrieNode → List String → Option TrieNode
  | n, [] => some n
  | n, ch :: rest =>
    match find_child n.children ch with
    | none => none
    | some child => walk child rest

end TrieNode

mutual
/-- The recursive lambda `dfs` of `get_frequent_patterns` (lines 137-151);
`current_pattern` is passed down instead of being pushed and popped. -/
def dfs (min_frequency : Int) (noncontiguous_only : Bool) :
    TrieNode → List String → List (List String × Int × Bool)
  | .mk cs e f _ _ nc, current_pattern =>
    (if e = true ∧ min_frequency ≤ f then
      (if noncontiguous_only = false ∨ nc = true then [(current_pattern, f, nc)] else [])
    else []) ++ dfs_children min_frequency noncontiguous_only cs current_pattern
/-- The `for` loop over `node->children` inside `dfs` (lines 144-150). -/
def dfs_children (min_frequency : Int) (noncontiguous_only : Bool) :
    List (String × TrieNode) → List String → List (List String × Int × Bool)
  | [], _ => []
  | (ch, child) :: rest, current_pattern =>
    dfs min_frequency noncontiguous_only child (current_pattern ++ [ch]) ++
      dfs_children min_frequency noncontiguous_only rest current_pattern
end

/-- Order imposed by the comparator `get<1>(a) > get<1>(b)` (line 158): `a` may stand
before `b` when `b` is not strictly more frequent. -/
def freq_ge (a b : List String × Int × Bool) : Prop := b.2.1 ≤ a.2.1

instance : DecidableRel freq_ge := fun a b => inferInstanceAs (Decidable (b.2.1 ≤ a.2.1))

/-- The call `sort(patterns.begin(), patterns.end(), ...)` of lines 156-159. -/
def sort_by_frequency (l : List (List String × Int × Bool)) : List (List String × Int × Bool) :=
  l.insertionSort freq_ge

/-- Class `SubsequenceTrie`. -/
structure SubsequenceTrie where
  root : TrieNode
  pattern_count : Int

namespace SubsequenceTrie

/-- Constructor `SubsequenceTrie()`. -/
def empty : SubsequenceTrie := ⟨TrieNode.empty, 0⟩

/-- Method `insert_pattern` (lines 93-117). -/
def insert_pattern (t : SubsequenceTrie) (pattern : List String) (sequence_id start_pos : Int)
    (is_noncontiguous : Bool) : SubsequenceTrie :=
  let r := t.root.insert_path pattern sequence_id start_pos is_noncontiguous
  ⟨r.1, if r.2 = true then t.pattern_count + 1 else t.pattern_count⟩

/-- Method `search_pattern` (lines 119-130); `none` is `nullptr`. -/
def search_pattern (t : SubsequenceTrie) (pattern : List String) : Option TrieNode :=
  match t.root.walk pattern with
  | none => none
  | some node => if node.is_end_of_pattern = true then some node else none

/-- Method `get_frequent_patterns` (lines 132-162). -/
def get_frequent_patterns (t : SubsequenceTrie) (min_frequency : Int)
    (noncontiguous_only : Bool) : List (List String × Int × Bool) :=
  sort_by_frequency (dfs min_frequency noncontiguous_only t.root [])

/-- Method `get_pattern_count`. -/
def get_pattern_count (t : SubsequenceTrie) : Int := t.pattern_count

end SubsequenceTrie

/-- One call `trie.insert_pattern(pattern, sequence_id, start_pos, is_noncontiguous)`. -/
structure InsertCall where
  pattern : List String
  sequence_id : Int
  start_pos : Int
  is_noncontiguous : Bool
deriving DecidableEq, Repr

/-- Run a list of `insert_pattern` calls in order. -/
def apply_calls (t : SubsequenceTrie) (calls : List InsertCall) : SubsequenceTrie :=
  calls.foldl (fun acc c => acc.insert_pattern c.pattern c.sequence_id c.start_pos
    c.is_noncontiguous) t

/-- Struct `SequenceData`. -/
structure SequenceData where
  id : Int
  sequence : List String
  length : Int
deriving DecidableEq, Repr

/-- Struct `MiningStatistics` (without `mining_time`). -/
structure MiningStatistics where
  total_sequences : Int
  total_patterns_found : Int
  cache_hits : Int
deriving DecidableEq, Repr

/-- Class `AdvancedSubsequenceMiner` (without `pattern_cache`). -/
structure AdvancedSubsequenceMiner where
  min_length : Int
  max_length : Int
  trie : SubsequenceTrie
  sequence_database : List SequenceData
  statistics : MiningStatistics

/-- Ways in which a call fails to return. -/
inductive Fault where
  | invalid_range
  | length_error
deriving DecidableEq, Repr

/-- Values `lo, lo+1, ..., hi` of a loop `for (int x = lo; x <= hi; ++x)`. -/
def int_range (lo hi : Int) : List Int :=
  (List.range (hi + 1 - lo).toNat).map (fun (k : Nat) => lo + (k : Int))

/-- The `insert_pattern` calls of the contiguous pass of `generate_subsequences`
(lines 202-208), in the order the two loops make them.  Meant for lengths that are
not negative; `generate_subsequences` rules the other case out before using it. -/
def contiguous_calls (min_length max_length : Int) (sequence : List String) (seq_id : Int) :
    List InsertCall :=
  let sequence_len : Int := sequence.length
  (int_range min_length (min max_length sequence_len)).flatMap (fun length =>
    (int_range 0 (sequence_len - length)).map (fun start =>
      ⟨(sequence.drop start.toNat).take length.toNat, seq_id, start, false⟩))

/-- The `insert_pattern` calls of `generate_noncontiguous_subsequences`
(lines 216-236), in mask order. -/
def noncontiguous_calls (min_length max_length : Int) (sequence : List String) (seq_id : Int) :
    List InsertCall :=
  let n := sequence.length
  let max_combinations := min 1000 (1 <<< n)
  (List.range' 1 (max_combinations - 1)).filterMap (fun i =>
    let positions := (List.range n).filter (fun j => i &&& (1 <<< j) ≠ 0)
    let subsequence := positions.map (fun j => sequence.getD j "")
    if min_length ≤ (subsequence.length : Int) ∧ (subsequence.length : Int) ≤ max_length then
      some ⟨subsequence, seq_id, ((positions.headD 0 : Nat) : Int), true⟩
    else none)

namespace AdvancedSubsequenceMiner

/-- Constructor `AdvancedSubsequenceMiner(min_len, max_len)`. -/
def new (min_len max_len : Int) : AdvancedSubsequenceMiner :=
  ⟨min_len, max_len, SubsequenceTrie.empty, [], ⟨0, 0, 0⟩⟩

/-- Method `generate_noncontiguous_subsequences` (lines 216-236). -/
def generate_noncontiguous_subsequences (m : AdvancedSubsequenceMiner) (trie : SubsequenceTrie)
    (sequence : List String) (seq_id : Int) : SubsequenceTrie :=
  apply_calls trie (noncontiguous_calls m.min_length m.max_length sequence seq_id)

/-- Method `generate_subsequences` (lines 198-214), acting on the trie.  When
`min_length` is negative and the outer loop runs at all, its first iteration builds
`vector(begin + 0, begin + 0 + length)` with a negative `length`, which does not
return. -/
def generate_subsequences (m : AdvancedSubsequenceMiner) (trie : SubsequenceTrie)
    (sequence : List String) (seq_id : Int) : Except Fault SubsequenceTrie :=
  let sequence_len : Int := sequence.length
  if m.min_length < 0 ∧ m.min_length ≤ min m.max_length sequence_len then
    .error .invalid_range
  else
    let trie1 := apply_calls trie (contiguous_calls m.min_length m.max_length sequence seq_id)
    if sequence_len ≤ 20 then
      .ok (m.generate_noncontiguous_subsequences trie1 sequence seq_id)
    else .ok trie1

/-- Method `join_pattern` (lines 238-247). -/
def join_pattern (pattern : List String) (delimiter : String) : String :=
  if pattern.isEmpty then "" else delimiter.intercalate pattern

/-- Method `add_sequence` (lines 253-262): the returned id and the new state. -/
def add_sequence (m : AdvancedSubsequenceMiner) (sequence : List String) (sequence_id : Int) :
    Int × AdvancedSubsequenceMiner :=
  let sid : Int := if sequence_id = -1 then (m.sequence_database.length : Int) else sequence_id
  (sid, { m with
    sequence_database := m.sequence_database ++ [⟨sid, sequence, sequence.length⟩]
    statistics := { m.statistics with total_sequences := m.statistics.total_sequences + 1 } })

/-- The first loop of `mine_frequent_patterns` (lines 268-270). -/
def generate_all (m : AdvancedSubsequenceMiner) : Except Fault SubsequenceTrie :=
  m.sequence_database.foldlM (fun t sd => m.generate_subsequences t sd.sequence sd.id) m.trie

/-- The body of the conversion loop of `mine_frequent_patterns` (lines 277-290). -/
def to_pattern_info (m : AdvancedSubsequenceMiner) (t : List String × Int × Bool) :
    PatternInfo :=
  { pattern := t.1
    frequency := t.2.1
    length := (t.1.length : Int)
    support := if m.sequence_database.isEmpty then 0
      else (t.2.1 : ℚ) / (m.sequence_database.length : ℚ)
    pattern_string := join_pattern t.1 " -> "
    is_noncontiguous := t.2.2
    pattern_type := if t.2.2 = true then "Non-contiguous" else "Contiguous" }

/-- Method `mine_frequent_patterns` (lines 264-297): the returned records and the
new state. -/
def mine_frequent_patterns (m : AdvancedSubsequenceMiner) (min_support : Int)
    (noncontiguous_only : Bool) : Except Fault (List PatternInfo × AdvancedSubsequenceMiner) :=
  match m.generate_all with
  | .error e => .error e
  | .ok trie =>
    let frequent_patterns := trie.get_frequent_patterns min_support noncontiguous_only
    let enhanced_patterns := frequent_patterns.map m.to_pattern_info
    .ok (enhanced_patterns, { m with
      trie := trie
      statistics := { m.statistics with
        total_patterns_found := (enhanced_patterns.length : Int) } })

/-- Order imposed by the comparator `a.frequency > b.frequency` (line 310). -/
def info_ge (a b : PatternInfo) : Prop := b.frequency ≤ a.frequency

instance : DecidableRel info_ge := fun a b => inferInstanceAs (Decidable (b.frequency ≤ a.frequency))

/-- Method `find_top_k_patterns` (lines 299-315).  For a negative `k` the test
`size <= k` fails and `resize(k)` is asked for a size above `max_size()`, which
throws. -/
def find_top_k_patterns (m : AdvancedSubsequenceMiner) (k min_support : Int)
    (noncontiguous_only : Bool) : Except Fault (List PatternInfo × AdvancedSubsequenceMiner) :=
  match m.mine_frequent_patterns min_support noncontiguous_only with
  | .error e => .error e
  | .ok (patterns, m1) =>
    if (patterns.length : Int) ≤ k then .ok (patterns, m1)
    else if k < 0 then .error .length_error
    else .ok ((patterns.insertionSort info_ge).take k.toNat, m1)

end AdvancedSubsequenceMiner

/-! ## Observing nodes by their root path -/

/-- The payload of the node at path `p` below `n`: end-of-pattern flag, frequency
counter and non-contiguous flag; a missing node reads as a fresh one. -/
def info_at (n : TrieNode) (p : List String) : Bool × Int × Bool :=
  match n.walk p with
  | some x => (x.is_end_of_pattern, x.frequency, x.is_noncontiguous)
  | none => (false, 0, false)

/-- Number of calls in `calls` whose pattern is exactly `p`. -/
def insert_count (calls : List InsertCall) (p : List String) : Nat :=
  (calls.filter (fun c => c.pattern = p)).length

mutual
/-- Every node below `n` (itself included) together with its root path, `cur` being
the path of `n`. -/
def nodes_below : TrieNode → List String → List (List String × TrieNode)
  | .mk cs e f ps c nc, cur => (cur, .mk cs e f ps c nc) :: nodes_below_children cs cur
/-- The nodes of `nodes_below` that lie below the children `cs`. -/
def nodes_below_children : List (String × TrieNode) → List String → List (List String × TrieNode)
  | [], _ => []
  | (ch, child) :: rest, cur => nodes_below child (cur ++ [ch]) ++ nodes_below_children rest cur
end

mutual
/-- Sibling labels are distinct at every node below `n`: what `unordered_map` keys
guarantee in the source. -/
def distinct_labels : TrieNode → Prop
  | .mk cs _ _ _ _ _ => (cs.map Prod.fst).Nodup ∧ distinct_labels_children cs
/-- The nodes below the children `cs` all have distinct sibling labels. -/
def distinct_labels_children : List (String × TrieNode) → Prop
  | [] => True
  | (_, child) :: rest => distinct_labels child ∧ distinct_labels_children rest
end

/-- The record `dfs` emits at one node, if any (lines 138-142). -/
def emit (min_frequency : Int) (noncontiguous_only : Bool) (x : List String × TrieNode) :
    Option (List String × Int × Bool) :=
  if x.2.is_end_of_pattern = true ∧ min_frequency ≤ x.2.frequency then
    (if noncontiguous_only = false ∨ x.2.is_noncontiguous = true then
      some (x.1, x.2.frequency, x.2.is_noncontiguous) else none)
  else none

namespace AdvancedSubsequenceMiner

/-- The `insert_pattern` calls `generate_subsequences` makes for one sequence: the
contiguous pass, then (for at most 20 elements) the bitmask pass. -/
def generate_calls (m : AdvancedSubsequenceMiner) (sequence : List String) (seq_id : Int) :
    List InsertCall :=
  contiguous_calls m.min_length m.max_length sequence seq_id ++
    (if (sequence.length : Int) ≤ 20 then
      noncontiguous_calls m.min_length m.max_length sequence seq_id else [])

/-- The `insert_pattern` calls of one `mine_frequent_patterns` call, over the whole
database. -/
def all_calls (m : AdvancedSubsequenceMiner) : List InsertCall :=
  m.sequence_database.flatMap (fun sd => m.generate_calls sd.sequence sd.id)

/-- A list of `add_sequence` calls, each given as the pair of its arguments. -/
def add_sequences (m : AdvancedSubsequenceMiner) (args : List (List String × Int)) :
    AdvancedSubsequenceMiner :=
  args.foldl (fun acc a => (acc.add_sequence a.1 a.2).2) m

end AdvancedSubsequenceMiner

/-! ## Order instances and example engines -/

instance : IsTotal (List String × Int × Bool) freq_ge := ⟨fun a b => Int.le_total b.2.1 a.2.1⟩

instance : IsTrans (List String × Int × Bool) freq_ge :=
  ⟨fun _ _ _ hab hbc => Int.le_trans hbc hab⟩

instance : IsTotal PatternInfo AdvancedSubsequenceMiner.info_ge :=
  ⟨fun a b => Int.le_total b.frequency a.frequency⟩

instance : IsTrans PatternInfo AdvancedSubsequenceMiner.info_ge :=
  ⟨fun _ _ _ hab hbc => Int.le_trans hbc hab⟩

/-- The engine of the three-sequence scenario: `min_length = max_length = 2` and the three
sequences registered with the default id argument. -/
def scenario_engine : AdvancedSubsequenceMiner :=
  (AdvancedSubsequenceMiner.new 2 2).add_sequences
    [(["a", "b", "c"], -1), (["a", "b", "d"], -1), (["a", "b", "c"], -1)]

/-- An engine with `min_length = max_length = 2` holding one sequence of 21 equal
elements; the bitmask pass does not run on it (21 > 20). -/
def repeated_engine : AdvancedSubsequenceMiner :=
  (AdvancedSubsequenceMiner.new 2 2).add_sequences [(List.replicate 21 "a", -1)]

/-! ## Further operations of the engine -/

/-- The last call of `calls` that inserts exactly `p`, if there is one. -/
def last_call (calls : List InsertCall) (p : List String) : Option InsertCall :=
  (calls.filter (fun c => c.pattern = p)).getLast?

/-- Lookup `m.find(key)` in a `std::map<string, int>`, held as an association list.  The
key order in which a `std::map` is iterated is not modelled; the statements below are
about lookups and about sums over all entries. -/
def map_get : List (String × Int) → String → Option Int
  | [], _ => none
  | (k, v) :: rest, key => if k = key then some v else map_get rest key

/-- Assignment `m[key] = value`. -/
def map_set : List (String × Int) → String → Int → List (String × Int)
  | [], key, value => [(key, value)]
  | (k, v) :: rest, key, value =>
    if k = key then (k, value) :: rest else (k, v) :: map_set rest key value

/-- Statement `m[key]++`: a missing key is created with 0 and then incremented. -/
def map_increment : List (String × Int) → String → List (String × Int)
  | [], key => [(key, 1)]
  | (k, v) :: rest, key =>
    if k = key then (k, v + 1) :: rest else (k, v) :: map_increment rest key

/-- Function `std::to_string(int)`: the decimal numeral. -/
def to_string (n : Int) : String := toString n

namespace AdvancedSubsequenceMiner

/-- Method `get_mining_statistics` (lines 339-342): the returned statistics and the new
state. -/
def get_mining_statistics (m : AdvancedSubsequenceMiner) :
    MiningStatistics × AdvancedSubsequenceMiner :=
  let statistics := { m.statistics with cache_hits := 0 }
  (statistics, { m with statistics := statistics })

/-- The map `length_distribution` after the first loop of `analyze_pattern_distribution`
(lines 323-326). -/
def length_distribution (patterns : List PatternInfo) : List (String × Int) :=
  patterns.foldl (fun acc pattern => map_increment acc ("length_" ++ to_string pattern.length)) []

/-- The map `frequency_distribution` after the first loop of
`analyze_pattern_distribution`; the method never reads it. -/
def frequency_distribution (patterns : List PatternInfo) : List (String × Int) :=
  patterns.foldl (fun acc pattern => map_increment acc ("freq_" ++ to_string pattern.frequency))
    []

/-- Method `analyze_pattern_distribution` (lines 317-337): the returned map and the new
state. -/
def analyze_pattern_distribution (m : AdvancedSubsequenceMiner) :
    Except Fault (List (String × Int) × AdvancedSubsequenceMiner) :=
  match m.mine_frequent_patterns 1 false with
  | .error e => .error e
  | .ok (patterns, m1) =>
    let result := map_set [] "total_unique_patterns" (patterns.length : Int)
    .ok ((length_distribution patterns).foldl (fun acc dist_pair =>
      map_set acc dist_pair.1 dist_pair.2) result, m1)

end AdvancedSubsequenceMiner

/-! ## Counting occurrences, in the words of the specification -/

/-- Number of start offsets `s` in `[0, |S| - |p|]` with `S[s : s+|p|] = p`. -/
def window_count (S p : List String) : Nat :=
  ((List.range (S.length + 1 - p.length)).filter
    (fun s => (S.drop s).take p.length = p)).length

/-- Elements of `S` at the set bits of the mask `mask`, in increasing index order. -/
def mask_select (S : List String) (mask : Nat) : List String :=
  ((List.range S.length).filter (fun j => mask.testBit j)).map (fun j => S.getD j "")

/-- Number of bitmasks `mask` with `1 <= mask < min(1000, 2^|S|)` whose selected elements
are `p`. -/
def mask_count (S p : List String) : Nat :=
  ((List.range (min 1000 (2 ^ S.length))).filter
    (fun mask => 1 ≤ mask ∧ mask_select S mask = p)).length

/-- Occurrences of `p` over the registered sequences: windows, plus selecting bitmasks for
the sequences of at most 20 elements. -/
def occurrence_count (sequences : List (List String)) (p : List String) : Nat :=
  (sequences.map (fun S =>
    window_count S p + (if S.length ≤ 20 then mask_count S p else 0))).sum

/-! ## More example engines -/

/-- An engine with `min_length = max_length = 2` holding `[a, b, c]` and then a sequence of
21 elements that starts with `a, c`. -/
def overwritten_engine : AdvancedSubsequenceMiner :=
  (AdvancedSubsequenceMiner.new 2 2).add_sequences
    [(["a", "b", "c"], -1), ("a" :: "c" :: List.replicate 19 "x", -1)]

/-! # Theorems -/

/-! ## Association-list lemmas -/

theorem find_child_set_child (cs : List (String × TrieNode)) (ch c : String) (v : TrieNode) :
    find_child (set_child cs ch v) c = if ch = c then some v else find_child cs c := by
  induction cs with
  | nil => simp [set_child, find_child]
  | cons x rest ih =>
    obtain ⟨k, w⟩ := x
    by_cases hk : k = ch
    · subst hk
      by_cases hc : k = c <;> simp [set_child, find_child, hc]
    · by_cases hc : k = c
      · subst hc
        have : ¬ ch = k := fun h => hk h.symm
        simp [set_child, find_child, hk, this]
      · simp [set_child, find_child, hk, hc, ih]

theorem find_child_mem {cs : List (String × TrieNode)} {ch : String} {v : TrieNode}
    (h : find_child cs ch = some v) : (ch, v) ∈ cs := by
  induction cs with
  | nil => simp [find_child] at h
  | cons x rest ih =>
    obtain ⟨k, w⟩ := x
    by_cases hk : k = ch
    · subst hk
      simp [find_child] at h
      simp [h]
    · simp [find_child, hk] at h
      exact List.mem_cons_of_mem _ (ih h)

theorem find_child_of_mem {cs : List (String × TrieNode)} {ch : String} {v : TrieNode}
    (nd : (cs.map Prod.fst).Nodup) (h : (ch, v) ∈ cs) : find_child cs ch = some v := by
  induction cs with
  | nil => simp at h
  | cons x rest ih =>
    obtain ⟨k, w⟩ := x
    simp only [List.map_cons, List.nodup_cons] at nd
    rcases List.mem_cons.1 h with h1 | h1
    · cases h1
      simp [find_child]
    · have hk : k ≠ ch := by
        intro hk
        subst hk
        exact nd.1 (List.mem_map_of_mem Prod.fst h1)
      simp [find_child, hk, ih nd.2 h1]

theorem find_child_eq_none {cs : List (String × TrieNode)} {ch : String} :
    find_child cs ch = none ↔ ch ∉ cs.map Prod.fst := by
  induction cs with
  | nil => simp [find_child]
  | cons x rest ih =>
    obtain ⟨k, w⟩ := x
    by_cases hk : k = ch
    · simp [find_child, hk]
    · have : ¬ ch = k := fun h => hk h.symm
      simp [find_child, hk, ih, this]

theorem set_child_keys (cs : List (String × TrieNode)) (ch : String) (v : TrieNode) :
    (set_child cs ch v).map Prod.fst =
      if ch ∈ cs.map Prod.fst then cs.map Prod.fst else cs.map Prod.fst ++ [ch] := by
  induction cs with
  | nil => simp [set_child]
  | cons x rest ih =>
    obtain ⟨k, w⟩ := x
    by_cases hk : k = ch
    · simp [set_child, hk]
    · have : ¬ ch = k := fun h => hk h.symm
      simp only [set_child, hk, if_false, List.map_cons, ih, List.mem_cons, this, false_or]
      split <;> simp

theorem mem_set_child {cs : List (String × TrieNode)} {ch : String} {v : TrieNode}
    {x : String × TrieNode} (h : x ∈ set_child cs ch v) : x ∈ cs ∨ x = (ch, v) := by
  induction cs with
  | nil => simpa [set_child] using h
  | cons y rest ih =>
    obtain ⟨k, w⟩ := y
    by_cases hk : k = ch
    · simp only [set_child, hk, if_true, List.mem_cons] at h
      rcases h with h | h
      · exact Or.inr h
      · exact Or.inl (List.mem_cons_of_mem _ h)
    · simp only [set_child, hk, if_false, List.mem_cons] at h
      rcases h with h | h
      · exact Or.inl (h ▸ List.mem_cons_self _ _)
      · rcases ih h with h1 | h1
        · exact Or.inl (List.mem_cons_of_mem _ h1)
        · exact Or.inr h1

/-! ## Induction over trie nodes -/

mutual
theorem TrieNode.induct {P : TrieNode → Prop}
    (h : ∀ cs e f ps c nc, (∀ x ∈ cs, P x.2) → P (.mk cs e f ps c nc)) : ∀ n, P n
  | .mk cs e f ps c nc => h cs e f ps c nc (TrieNode.induct_children h cs)
theorem TrieNode.induct_children {P : TrieNode → Prop}
    (h : ∀ cs e f ps c nc, (∀ x ∈ cs, P x.2) → P (.mk cs e f ps c nc)) :
    ∀ (cs : List (String × TrieNode)), ∀ x ∈ cs, P x.2
  | [], _, hx => by simp at hx
  | (_, child) :: rest, x, hx => by
    rcases List.mem_cons.1 hx with h1 | h1
    · subst h1
      exact TrieNode.induct h child
    · exact TrieNode.induct_children h rest x h1
end

/-! ## Walking after an insertion -/

theorem walk_nil (n : TrieNode) : n.walk [] = some n := by
  cases n; rfl

theorem walk_cons (n : TrieNode) (ch : String) (rest : List String) :
    n.walk (ch :: rest) = (find_child n.children ch).bind (fun c => c.walk rest) := by
  cases n
  simp only [TrieNode.walk]
  split <;> simp_all

theorem info_at_nil (n : TrieNode) :
    info_at n [] = (n.is_end_of_pattern, n.frequency, n.is_noncontiguous) := by
  simp [info_at, walk_nil]

theorem info_at_cons (n : TrieNode) (ch : String) (rest : List String) :
    info_at n (ch :: rest) =
      match find_child n.children ch with
      | some c => info_at c rest
      | none => (false, 0, false) := by
  simp only [info_at, walk_cons]
  cases find_child n.children ch <;> simp

theorem info_at_new_child (ch : String) (p : List String) :
    info_at (TrieNode.new_child ch) p = (false, 0, false) := by
  cases p with
  | nil => simp [info_at_nil, TrieNode.new_child, TrieNode.is_end_of_pattern, TrieNode.frequency,
      TrieNode.is_noncontiguous]
  | cons c rest => simp [info_at_cons, TrieNode.new_child, TrieNode.children, find_child]

theorem info_at_add_position (n : TrieNode) (sid pos : Int) (p : List String) :
    info_at (n.add_position sid pos) p = info_at n p := by
  cases n
  cases p with
  | nil => simp [info_at_nil, TrieNode.add_position, TrieNode.is_end_of_pattern,
      TrieNode.frequency, TrieNode.is_noncontiguous]
  | cons c rest => simp [info_at_cons, TrieNode.add_position, TrieNode.children]

/-- Effect of one insertion on the payload at every path: only the node of the inserted
pattern changes. -/
theorem info_at_insert_path (pat : List String) :
    ∀ (n : TrieNode) (sid pos : Int) (flag : Bool) (p : List String),
      info_at (n.insert_path pat sid pos flag).1 p =
        if p = pat then (true, (info_at n p).2.1 + 1, flag) else info_at n p := by
  induction pat with
  | nil =>
    intro n sid pos flag p
    cases n
    cases p with
    | nil => simp [TrieNode.insert_path, info_at_nil, TrieNode.is_end_of_pattern,
        TrieNode.frequency, TrieNode.is_noncontiguous]
    | cons c rest => simp [TrieNode.insert_path, info_at_cons, TrieNode.children]
  | cons ch rest ih =>
    intro n sid pos flag p
    obtain ⟨cs, e, f, ps, c, nc⟩ := n
    cases p with
    | nil => simp [TrieNode.insert_path, info_at_nil, TrieNode.is_end_of_pattern,
        TrieNode.frequency, TrieNode.is_noncontiguous]
    | cons c1 p1 =>
      simp only [TrieNode.insert_path, info_at_cons, TrieNode.children, find_child_set_child,
        List.cons.injEq]
      by_cases hc : ch = c1
      · subst hc
        simp only [if_true, true_and, ih, info_at_add_position]
        cases hfc : find_child cs ch with
        | none => simp [info_at_new_child]
        | some child => simp
      · have hc1 : ¬ c1 = ch := fun h => hc h.symm
        simp [hc, hc1]

/-! ## Lists of insertions -/

theorem insert_pattern_root (t : SubsequenceTrie) (c : InsertCall) :
    (t.insert_pattern c.pattern c.sequence_id c.start_pos c.is_noncontiguous).root =
      (t.root.insert_path c.pattern c.sequence_id c.start_pos c.is_noncontiguous).1 := rfl

theorem apply_calls_nil (t : SubsequenceTrie) : apply_calls t [] = t := rfl

theorem apply_calls_cons (t : SubsequenceTrie) (c : InsertCall) (cs : List InsertCall) :
    apply_calls t (c :: cs) =
      apply_calls (t.insert_pattern c.pattern c.sequence_id c.start_pos c.is_noncontiguous) cs :=
  rfl

theorem apply_calls_append (t : SubsequenceTrie) (l1 l2 : List InsertCall) :
    apply_calls t (l1 ++ l2) = apply_calls (apply_calls t l1) l2 := by
  simp [apply_calls, List.foldl_append]

theorem insert_count_nil (p : List String) : insert_count [] p = 0 := rfl

theorem insert_count_cons (c : InsertCall) (cs : List InsertCall) (p : List String) :
    insert_count (c :: cs) p = (if c.pattern = p then 1 else 0) + insert_count cs p := by
  unfold insert_count
  by_cases h : c.pattern = p <;> simp [List.filter_cons, h, Nat.add_comm]

theorem insert_count_append (l1 l2 : List InsertCall) (p : List String) :
    insert_count (l1 ++ l2) p = insert_count l1 p + insert_count l2 p := by
  simp [insert_count, List.filter_append]

theorem insert_count_pos_iff (calls : List InsertCall) (p : List String) :
    0 < insert_count calls p ↔ p ∈ calls.map (fun c => c.pattern) := by
  unfold insert_count
  rw [List.length_pos_iff_exists_mem]
  constructor
  · rintro ⟨c, hc⟩
    rw [List.mem_filter] at hc
    exact List.mem_map.2 ⟨c, hc.1, by simpa using hc.2⟩
  · intro h
    obtain ⟨c, hc, rfl⟩ := List.mem_map.1 h
    exact ⟨c, List.mem_filter.2 ⟨hc, by simp⟩⟩

/-- Frequency counter at path `p` after a list of insertions: the old counter plus the
number of insertions of exactly `p`. -/
theorem frequency_apply_calls (calls : List InsertCall) :
    ∀ (t : SubsequenceTrie) (p : List String),
      (info_at (apply_calls t calls).root p).2.1 =
        (info_at t.root p).2.1 + (insert_count calls p : Int) := by
  induction calls with
  | nil => intro t p; simp [apply_calls_nil, insert_count_nil]
  | cons c cs ih =>
    intro t p
    rw [apply_calls_cons, ih, insert_pattern_root, info_at_insert_path, insert_count_cons]
    by_cases h : p = c.pattern
    · subst h
      simp
      ring
    · have h1 : ¬ c.pattern = p := fun h1 => h h1.symm
      simp [h, h1]

/-- End-of-pattern flag at path `p` after a list of insertions. -/
theorem end_flag_apply_calls (calls : List InsertCall) :
    ∀ (t : SubsequenceTrie) (p : List String),
      (info_at (apply_calls t calls).root p).1 =
        ((info_at t.root p).1 || decide (p ∈ calls.map (fun c => c.pattern))) := by
  induction calls with
  | nil => intro t p; simp [apply_calls_nil]
  | cons c cs ih =>
    intro t p
    rw [apply_calls_cons, ih, insert_pattern_root, info_at_insert_path]
    by_cases h : p = c.pattern
    · subst h
      simp
    · simp [h]

theorem info_at_empty (p : List String) : info_at SubsequenceTrie.empty.root p = (false, 0, false) := by
  cases p with
  | nil => simp [info_at_nil, SubsequenceTrie.empty, TrieNode.empty, TrieNode.is_end_of_pattern,
      TrieNode.frequency, TrieNode.is_noncontiguous]
  | cons c rest => simp [info_at_cons, SubsequenceTrie.empty, TrieNode.empty, TrieNode.children,
      find_child]

/-! ## Distinct sibling labels -/

theorem distinct_labels_children_iff (cs : List (String × TrieNode)) :
    distinct_labels_children cs ↔ ∀ x ∈ cs, distinct_labels x.2 := by
  induction cs with
  | nil => simp [distinct_labels_children]
  | cons x rest ih =>
    obtain ⟨k, w⟩ := x
    simp [distinct_labels_children, ih]

theorem distinct_labels_mk (cs : List (String × TrieNode)) (e : Bool) (f : Int)
    (ps : List Position) (c : String) (nc : Bool) :
    distinct_labels (.mk cs e f ps c nc) ↔
      (cs.map Prod.fst).Nodup ∧ ∀ x ∈ cs, distinct_labels x.2 := by
  simp [distinct_labels, distinct_labels_children_iff]

theorem distinct_labels_new_child (ch : String) : distinct_labels (TrieNode.new_child ch) := by
  simp [TrieNode.new_child, distinct_labels_mk]

theorem distinct_labels_empty : distinct_labels SubsequenceTrie.empty.root := by
  simp [SubsequenceTrie.empty, TrieNode.empty, distinct_labels_mk]

theorem distinct_labels_add_position (n : TrieNode) (sid pos : Int) :
    distinct_labels (n.add_position sid pos) ↔ distinct_labels n := by
  cases n
  simp [TrieNode.add_position, distinct_labels_mk]

theorem nodup_set_child_keys {cs : List (String × TrieNode)} (ch : String) (v : TrieNode)
    (h : (cs.map Prod.fst).Nodup) : ((set_child cs ch v).map Prod.fst).Nodup := by
  rw [set_child_keys]
  split
  · exact h
  · rename_i hmem
    rw [List.nodup_append]
    refine ⟨h, List.nodup_singleton _, ?_⟩
    intro a ha hb
    simp at hb
    subst hb
    exact hmem ha

/-- An insertion keeps sibling labels distinct. -/
theorem distinct_labels_insert_path (pat : List String) :
    ∀ (n : TrieNode) (sid pos : Int) (flag : Bool), distinct_labels n →
      distinct_labels (n.insert_path pat sid pos flag).1 := by
  induction pat with
  | nil =>
    intro n sid pos flag h
    cases n
    simpa [TrieNode.insert_path, distinct_labels_mk] using h
  | cons ch rest ih =>
    intro n sid pos flag h
    obtain ⟨cs, e, f, ps, c, nc⟩ := n
    rw [distinct_labels_mk] at h
    simp only [TrieNode.insert_path, distinct_labels_mk]
    refine ⟨nodup_set_child_keys _ _ h.1, ?_⟩
    intro x hx
    rcases mem_set_child hx with h1 | h1
    · exact h.2 x h1
    · subst h1
      apply ih
      rw [distinct_labels_add_position]
      cases hfc : find_child cs ch with
      | none => exact distinct_labels_new_child ch
      | some child => exact h.2 _ (find_child_mem hfc)

theorem distinct_labels_apply_calls (calls : List InsertCall) :
    ∀ (t : SubsequenceTrie), distinct_labels t.root → distinct_labels (apply_calls t calls).root := by
  induction calls with
  | nil => intro t h; exact h
  | cons c cs ih =>
    intro t h
    rw [apply_calls_cons]
    exact ih _ (distinct_labels_insert_path _ _ _ _ _ h)

/-! ## The traversal -/

theorem nodes_below_mk (cs : List (String × TrieNode)) (e : Bool) (f : Int)
    (ps : List Position) (c : String) (nc : Bool) (cur : List String) :
    nodes_below (.mk cs e f ps c nc) cur =
      (cur, .mk cs e f ps c nc) :: nodes_below_children cs cur := by
  simp [nodes_below]

theorem nodes_below_children_eq (cs : List (String × TrieNode)) (cur : List String) :
    nodes_below_children cs cur = cs.flatMap (fun y => nodes_below y.2 (cur ++ [y.1])) := by
  induction cs with
  | nil => simp [nodes_below_children]
  | cons x rest ih =>
    obtain ⟨k, w⟩ := x
    simp [nodes_below_children, ih]

theorem dfs_children_eq (min_frequency : Int) (nco : Bool) (cs : List (String × TrieNode))
    (cur : List String) :
    dfs_children min_frequency nco cs cur =
      cs.flatMap (fun y => dfs min_frequency nco y.2 (cur ++ [y.1])) := by
  induction cs with
  | nil => simp [dfs_children]
  | cons x rest ih =>
    obtain ⟨k, w⟩ := x
    simp [dfs_children, ih]

theorem flatMap_congr_mem {α β : Type} {l : List α} {f g : α → List β}
    (h : ∀ x ∈ l, f x = g x) : l.flatMap f = l.flatMap g := by
  induction l with
  | nil => rfl
  | cons a rest ih =>
    simp only [List.flatMap_cons]
    rw [h a (List.mem_cons_self _ _), ih (fun x hx => h x (List.mem_cons_of_mem _ hx))]

theorem filterMap_flatMap {α β γ : Type} (l : List α) (g : α → List β) (f : β → Option γ) :
    (l.flatMap g).filterMap f = l.flatMap (fun a => (g a).filterMap f) := by
  induction l with
  | nil => rfl
  | cons a rest ih => simp [List.flatMap_cons, List.filterMap_append, ih]

/-- The traversal emits, in traversal order, the records of the nodes that pass the
tests of lines 138-139. -/
theorem dfs_eq_filterMap (min_frequency : Int) (nco : Bool) (n : TrieNode) :
    ∀ cur, dfs min_frequency nco n cur =
      (nodes_below n cur).filterMap (emit min_frequency nco) := by
  induction n using TrieNode.induct with
  | h cs e f ps c nc ih =>
    intro cur
    rw [nodes_below_mk, dfs, dfs_children_eq, nodes_below_children_eq, List.filterMap_cons,
      filterMap_flatMap]
    rw [flatMap_congr_mem (fun x hx => ih x hx (cur ++ [x.1]))]
    simp only [emit, TrieNode.is_end_of_pattern, TrieNode.frequency, TrieNode.is_noncontiguous]
    by_cases h1 : e = true ∧ min_frequency ≤ f
    · by_cases h2 : nco = false ∨ nc = true
      · simp [h1, h2]
      · simp [h1, h2]
    · simp [h1]

/-- Every listed node sits at the path it is listed with. -/
theorem mem_nodes_below (n : TrieNode) :
    ∀ (cur q : List String) (x : TrieNode), distinct_labels n →
      ((q, x) ∈ nodes_below n cur ↔ ∃ p, q = cur ++ p ∧ n.walk p = some x) := by
  induction n using TrieNode.induct with
  | h cs e f ps c nc ih =>
    intro cur q x hd
    rw [distinct_labels_mk] at hd
    rw [nodes_below_mk, nodes_below_children_eq, List.mem_cons, List.mem_flatMap]
    constructor
    · rintro (h | ⟨y, hy, hmem⟩)
      · cases h
        exact ⟨[], by simp, walk_nil _⟩
      · obtain ⟨p, hq, hw⟩ := (ih y hy (cur ++ [y.1]) q x (hd.2 y hy)).1 hmem
        refine ⟨y.1 :: p, by simp [hq], ?_⟩
        rw [walk_cons]
        simp [TrieNode.children, find_child_of_mem hd.1 hy, hw]
    · rintro ⟨p, hq, hw⟩
      cases p with
      | nil =>
        rw [walk_nil] at hw
        cases hw
        left
        simp [hq]
      | cons k p1 =>
        right
        rw [walk_cons] at hw
        simp only [TrieNode.children] at hw
        cases hfc : find_child cs k with
        | none => simp [hfc] at hw
        | some child =>
          simp only [hfc, Option.some_bind] at hw
          have hy := find_child_mem hfc
          exact ⟨(k, child), hy,
            (ih _ hy (cur ++ [k]) q x (hd.2 _ hy)).2 ⟨p1, by simp [hq], hw⟩⟩

theorem path_of_mem_nodes_below (n : TrieNode) :
    ∀ (cur q : List String) (x : TrieNode), (q, x) ∈ nodes_below n cur → ∃ p, q = cur ++ p := by
  induction n using TrieNode.induct with
  | h cs e f ps c nc ih =>
    intro cur q x hmem
    rw [nodes_below_mk, nodes_below_children_eq, List.mem_cons, List.mem_flatMap] at hmem
    rcases hmem with h | ⟨y, hy, hmem⟩
    · cases h
      exact ⟨[], by simp⟩
    · obtain ⟨p, hq⟩ := ih y hy _ _ _ hmem
      exact ⟨y.1 :: p, by simp [hq]⟩

theorem nodup_flatMap_of {α β : Type} (l : List α) (g : α → List β)
    (h1 : ∀ a ∈ l, (g a).Nodup)
    (h2 : l.Pairwise (fun a b => ∀ x ∈ g a, x ∉ g b)) : (l.flatMap g).Nodup := by
  induction l with
  | nil => simp
  | cons a rest ih =>
    rw [List.pairwise_cons] at h2
    rw [List.flatMap_cons, List.nodup_append]
    refine ⟨h1 a (List.mem_cons_self _ _),
      ih (fun b hb => h1 b (List.mem_cons_of_mem _ hb)) h2.2, ?_⟩
    intro x hx hx2
    obtain ⟨b, hb, hxb⟩ := List.mem_flatMap.1 hx2
    exact h2.1 b hb x hx hxb

/-- No path is listed twice: a root path names one node. -/
theorem nodup_paths_nodes_below (n : TrieNode) :
    ∀ (cur : List String), distinct_labels n → ((nodes_below n cur).map Prod.fst).Nodup := by
  induction n using TrieNode.induct with
  | h cs e f ps c nc ih =>
    intro cur hd
    rw [distinct_labels_mk] at hd
    rw [nodes_below_mk, nodes_below_children_eq, List.map_cons, List.nodup_cons,
      List.map_flatMap]
    constructor
    · intro hmem
      obtain ⟨y, _, hq⟩ := List.mem_flatMap.1 hmem
      obtain ⟨z, hz, hz1⟩ := List.mem_map.1 hq
      obtain ⟨p, hp⟩ := path_of_mem_nodes_below y.2 _ z.1 z.2 hz
      rw [hz1] at hp
      have := congrArg List.length hp
      simp at this
    · apply nodup_flatMap_of
      · intro y hy
        exact ih y hy _ (hd.2 y hy)
      · have hk : cs.Pairwise (fun a b => a.1 ≠ b.1) := by
          have := hd.1
          rwa [List.Nodup, List.pairwise_map] at this
        refine hk.imp ?_
        intro a b hab q hqa hqb
        obtain ⟨z, hz, hz1⟩ := List.mem_map.1 hqa
        obtain ⟨w, hw, hw1⟩ := List.mem_map.1 hqb
        obtain ⟨p, hp⟩ := path_of_mem_nodes_below a.2 _ z.1 z.2 hz
        obtain ⟨p2, hp2⟩ := path_of_mem_nodes_below b.2 _ w.1 w.2 hw
        rw [hz1] at hp
        rw [hw1, hp] at hp2
        simp at hp2
        exact hab hp2.1

theorem map_fst_filterMap_emit (min_frequency : Int) (nco : Bool)
    (l : List (List String × TrieNode)) :
    ((l.filterMap (emit min_frequency nco)).map Prod.fst).Sublist (l.map Prod.fst) := by
  induction l with
  | nil => simp
  | cons x rest ih =>
    rw [List.filterMap_cons]
    cases he : emit min_frequency nco x with
    | none => exact ih.trans (by simp)
    | some y =>
      have : y.1 = x.1 := by
        unfold emit at he
        split at he
        · split at he
          · cases he; rfl
          · cases he
        · cases he
      simp only [List.map_cons, this]
      exact ih.cons₂ _

/-! ## Sorting -/

theorem sort_by_frequency_perm (l : List (List String × Int × Bool)) :
    (sort_by_frequency l).Perm l := List.perm_insertionSort _ l

theorem sort_by_frequency_sorted (l : List (List String × Int × Bool)) :
    (sort_by_frequency l).Pairwise (fun a b => b.2.1 ≤ a.2.1) :=
  List.sorted_insertionSort freq_ge l

/-! ## What the trie query returns -/

theorem mem_get_frequent_patterns (t : SubsequenceTrie) (hd : distinct_labels t.root)
    (min_frequency : Int) (nco : Bool) (q : List String) (f : Int) (nc : Bool) :
    (q, f, nc) ∈ t.get_frequent_patterns min_frequency nco ↔
      ∃ x, t.root.walk q = some x ∧ x.is_end_of_pattern = true ∧ min_frequency ≤ x.frequency ∧
        (nco = false ∨ x.is_noncontiguous = true) ∧ f = x.frequency ∧
        nc = x.is_noncontiguous := by
  unfold SubsequenceTrie.get_frequent_patterns
  rw [(sort_by_frequency_perm _).mem_iff, dfs_eq_filterMap, List.mem_filterMap]
  constructor
  · rintro ⟨⟨q1, x⟩, hmem, he⟩
    obtain ⟨p, hp, hw⟩ := (mem_nodes_below t.root [] q1 x hd).1 hmem
    simp only [List.nil_append] at hp
    subst hp
    unfold emit at he
    split at he
    · rename_i h1
      split at he
      · rename_i h2
        simp only [Option.some.injEq, Prod.mk.injEq] at he
        obtain ⟨rfl, rfl, rfl⟩ := he
        exact ⟨x, hw, h1.1, h1.2, h2, rfl, rfl⟩
      · cases he
    · cases he
  · rintro ⟨x, hw, h1, h2, h3, rfl, rfl⟩
    refine ⟨(q, x), (mem_nodes_below t.root [] q x hd).2 ⟨q, by simp, hw⟩, ?_⟩
    simp [emit, h1, h2, h3]

theorem nodup_get_frequent_patterns (t : SubsequenceTrie) (hd : distinct_labels t.root)
    (min_frequency : Int) (nco : Bool) :
    ((t.get_frequent_patterns min_frequency nco).map Prod.fst).Nodup := by
  unfold SubsequenceTrie.get_frequent_patterns
  rw [((sort_by_frequency_perm _).map Prod.fst).nodup_iff, dfs_eq_filterMap]
  exact (map_fst_filterMap_emit _ _ _).nodup (nodup_paths_nodes_below _ _ hd)

/-! ## The mining call -/

namespace AdvancedSubsequenceMiner

theorem generate_subsequences_ok (m : AdvancedSubsequenceMiner) (h : 0 ≤ m.min_length)
    (t : SubsequenceTrie) (sequence : List String) (seq_id : Int) :
    m.generate_subsequences t sequence seq_id =
      .ok (apply_calls t (m.generate_calls sequence seq_id)) := by
  have h1 : ¬ m.min_length < 0 := not_lt.2 h
  unfold generate_subsequences generate_calls generate_noncontiguous_subsequences
  simp only [h1, false_and, if_false]
  split <;> simp [apply_calls_append, apply_calls_nil]

theorem foldlM_generate_ok (m : AdvancedSubsequenceMiner) (h : 0 ≤ m.min_length)
    (db : List SequenceData) :
    ∀ t : SubsequenceTrie,
      db.foldlM (fun t sd => m.generate_subsequences t sd.sequence sd.id) t =
        .ok (apply_calls t (db.flatMap (fun sd => m.generate_calls sd.sequence sd.id))) := by
  induction db with
  | nil => intro t; rfl
  | cons sd rest ih =>
    intro t
    rw [List.foldlM_cons, generate_subsequences_ok m h]
    simp only [List.flatMap_cons, apply_calls_append]
    exact ih _

/-- With a `min_length` that is not negative the enumeration returns, and the trie it
leaves is the old one after the calls of `all_calls`. -/
theorem generate_all_ok (m : AdvancedSubsequenceMiner) (h : 0 ≤ m.min_length) :
    m.generate_all = .ok (apply_calls m.trie m.all_calls) :=
  foldlM_generate_ok m h m.sequence_database m.trie

/-- With a `min_length` that is not negative `mine_frequent_patterns` returns. -/
theorem mine_frequent_patterns_ok (m : AdvancedSubsequenceMiner) (h : 0 ≤ m.min_length)
    (min_support : Int) (nco : Bool) :
    m.mine_frequent_patterns min_support nco =
      .ok (((apply_calls m.trie m.all_calls).get_frequent_patterns min_support nco).map
          m.to_pattern_info,
        { m with
          trie := apply_calls m.trie m.all_calls
          statistics := { m.statistics with
            total_patterns_found :=
              ((((apply_calls m.trie m.all_calls).get_frequent_patterns min_support nco).map
                m.to_pattern_info).length : Int) } }) := by
  unfold mine_frequent_patterns
  rw [generate_all_ok m h]

theorem add_sequences_nil (m : AdvancedSubsequenceMiner) : m.add_sequences [] = m := rfl

theorem add_sequences_cons (m : AdvancedSubsequenceMiner) (a : List String × Int)
    (rest : List (List String × Int)) :
    m.add_sequences (a :: rest) = (m.add_sequence a.1 a.2).2.add_sequences rest := rfl

theorem add_sequences_fields (args : List (List String × Int)) :
    ∀ m : AdvancedSubsequenceMiner,
      (m.add_sequences args).min_length = m.min_length ∧
      (m.add_sequences args).max_length = m.max_length ∧
      (m.add_sequences args).trie = m.trie ∧
      (m.add_sequences args).sequence_database.length =
        m.sequence_database.length + args.length ∧
      (m.add_sequences args).sequence_database.map (fun sd => sd.sequence) =
        m.sequence_database.map (fun sd => sd.sequence) ++ args.map Prod.fst := by
  induction args with
  | nil => intro m; simp [add_sequences_nil]
  | cons a rest ih =>
    intro m
    rw [add_sequences_cons]
    obtain ⟨h1, h2, h3, h4, h5⟩ := ih (m.add_sequence a.1 a.2).2
    refine ⟨h1, h2, h3, ?_, ?_⟩
    · rw [h4]
      simp [add_sequence]
      omega
    · rw [h5]
      simp [add_sequence]

end AdvancedSubsequenceMiner

/-! ## Tries built from the empty trie -/

theorem info_at_of_walk {n : TrieNode} {p : List String} {x : TrieNode}
    (h : n.walk p = some x) :
    info_at n p = (x.is_end_of_pattern, x.frequency, x.is_noncontiguous) := by
  simp [info_at, h]

/-- In a trie built from the empty one, the counter of the node at path `q` is the number
of insertions of exactly `q`, and its end-of-pattern flag says whether there was one. -/
theorem node_after_calls {calls : List InsertCall} {q : List String} {x : TrieNode}
    (hw : (apply_calls SubsequenceTrie.empty calls).root.walk q = some x) :
    x.frequency = (insert_count calls q : Int) ∧
      (x.is_end_of_pattern = true ↔ q ∈ calls.map (fun c => c.pattern)) := by
  have h1 := frequency_apply_calls calls SubsequenceTrie.empty q
  have h2 := end_flag_apply_calls calls SubsequenceTrie.empty q
  rw [info_at_of_walk hw, info_at_empty] at h1 h2
  simp only [zero_add, Bool.false_or] at h1 h2
  refine ⟨h1, ?_⟩
  rw [h2]
  simp

/-- In a trie built from the empty one, the node of an inserted pattern exists. -/
theorem walk_of_inserted {calls : List InsertCall} {q : List String}
    (h : q ∈ calls.map (fun c => c.pattern)) :
    ∃ x, (apply_calls SubsequenceTrie.empty calls).root.walk q = some x := by
  have h2 := end_flag_apply_calls calls SubsequenceTrie.empty q
  cases hw : (apply_calls SubsequenceTrie.empty calls).root.walk q with
  | some x => exact ⟨x, rfl⟩
  | none =>
    simp only [info_at, hw, info_at_empty, Bool.false_or] at h2
    simp [h] at h2

theorem distinct_labels_after_calls (calls : List InsertCall) :
    distinct_labels (apply_calls SubsequenceTrie.empty calls).root :=
  distinct_labels_apply_calls calls _ distinct_labels_empty

/-! ## What a returning mining call did -/

namespace AdvancedSubsequenceMiner

theorem generate_subsequences_eq {m : AdvancedSubsequenceMiner} {t t1 : SubsequenceTrie}
    {sequence : List String} {seq_id : Int}
    (h : m.generate_subsequences t sequence seq_id = .ok t1) :
    t1 = apply_calls t (m.generate_calls sequence seq_id) := by
  unfold generate_subsequences at h
  unfold generate_calls
  simp only [generate_noncontiguous_subsequences] at h
  by_cases hg : m.min_length < 0 ∧ m.min_length ≤ min m.max_length (sequence.length : Int)
  · rw [if_pos hg] at h
    cases h
  · rw [if_neg hg] at h
    by_cases h20 : (sequence.length : Int) ≤ 20
    · rw [if_pos h20] at h
      cases h
      simp [h20, apply_calls_append]
    · rw [if_neg h20] at h
      cases h
      simp [h20]

theorem foldlM_generate_eq (m : AdvancedSubsequenceMiner) (db : List SequenceData) :
    ∀ t t1 : SubsequenceTrie,
      db.foldlM (fun t sd => m.generate_subsequences t sd.sequence sd.id) t = .ok t1 →
      t1 = apply_calls t (db.flatMap (fun sd => m.generate_calls sd.sequence sd.id)) := by
  induction db with
  | nil =>
    intro t t1 h
    cases h
    rfl
  | cons sd rest ih =>
    intro t t1 h
    rw [List.foldlM_cons] at h
    cases hg : m.generate_subsequences t sd.sequence sd.id with
    | error e =>
      rw [hg] at h
      cases h
    | ok t2 =>
      rw [hg] at h
      have h2 := ih t2 t1 h
      rw [generate_subsequences_eq hg] at h2
      rw [h2, List.flatMap_cons, apply_calls_append]

/-- Whenever `mine_frequent_patterns` returns, its records are the converted results of
`get_frequent_patterns` on the trie after the calls of `all_calls`, and the new state
holds that trie and the same configuration and database. -/
theorem mine_frequent_patterns_eq {m m1 : AdvancedSubsequenceMiner} {min_support : Int}
    {nco : Bool} {recs : List PatternInfo}
    (h : m.mine_frequent_patterns min_support nco = .ok (recs, m1)) :
    recs = ((apply_calls m.trie m.all_calls).get_frequent_patterns min_support nco).map
        m.to_pattern_info ∧
      m1.trie = apply_calls m.trie m.all_calls ∧ m1.min_length = m.min_length ∧
      m1.max_length = m.max_length ∧ m1.sequence_database = m.sequence_database := by
  unfold mine_frequent_patterns at h
  cases hg : m.generate_all with
  | error e =>
    rw [hg] at h
    cases h
  | ok t =>
    rw [hg] at h
    have ht : t = apply_calls m.trie m.all_calls := foldlM_generate_eq m _ _ _ hg
    subst ht
    simp only [Except.ok.injEq, Prod.mk.injEq] at h
    obtain ⟨h1, h2⟩ := h
    subst h1 h2
    exact ⟨rfl, rfl, rfl, rfl, rfl⟩

end AdvancedSubsequenceMiner

/-! ## The claims -/

open AdvancedSubsequenceMiner

/-- C1 (the code at the scenario): with `min_length = max_length = 2` and the sequences
`[a,b,c]`, `[a,b,d]`, `[a,b,c]`, one call `mine_frequent_patterns(2)` returns the pattern
`a,b` with frequency 6 and `b,c` with frequency 4, not 3 and 2: the contiguous pass inserts
them 3 and 2 times, and the bitmask pass inserts every one of these windows once more. -/
theorem scenario_frequencies :
    ∃ recs m1, scenario_engine.mine_frequent_patterns 2 false = .ok (recs, m1) ∧
      (∃ r ∈ recs, r.pattern = ["a", "b"] ∧ r.frequency = 6) ∧
      (∃ r ∈ recs, r.pattern = ["b", "c"] ∧ r.frequency = 4) ∧
      (∀ r ∈ recs, r.pattern = ["a", "b"] → r.frequency ≠ 3) ∧
      (∀ r ∈ recs, r.pattern = ["b", "c"] → r.frequency ≠ 2) ∧
      insert_count (scenario_engine.sequence_database.flatMap (fun sd =>
        contiguous_calls 2 2 sd.sequence sd.id)) ["a", "b"] = 3 ∧
      insert_count (scenario_engine.sequence_database.flatMap (fun sd =>
        contiguous_calls 2 2 sd.sequence sd.id)) ["b", "c"] = 2 :=
  ⟨_, _, mine_frequent_patterns_ok scenario_engine (by decide) 2 false, by decide!⟩

/-- C2 (as stated, refuted): one registered sequence of 21 equal elements gives the window
`a,a` the frequency 20 and the support 20, which is above 1. -/
theorem support_above_one :
    ∃ recs m1, repeated_engine.mine_frequent_patterns 2 false = .ok (recs, m1) ∧
      repeated_engine.sequence_database.length = 1 ∧
      ∃ r ∈ recs, r.pattern = ["a", "a"] ∧ r.frequency = 20 ∧ r.support = 20 ∧
        ¬ r.support ≤ 1 := by
  refine ⟨_, _, mine_frequent_patterns_ok repeated_engine (by decide) 2 false, by decide,
    repeated_engine.to_pattern_info (["a", "a"], 20, false),
    List.mem_map_of_mem _ (by decide!), rfl, rfl, ?_⟩
  have h1 : repeated_engine.sequence_database.isEmpty = false := by decide
  have h2 : repeated_engine.sequence_database.length = 1 := by decide
  simp only [to_pattern_info, h1, h2]
  norm_num

/-- C2 (amended): on a fresh engine with any registered sequences a single
`mine_frequent_patterns` call returns whenever `min_length` is not negative, and every
record it returns has a support that is not negative and equals the exact quotient of its
frequency by the number of registered sequences, which is then at least 1; the support is
not bounded by 1. -/
theorem support_nonneg_quotient (min_len max_len : Int) (args : List (List String × Int))
    (min_support : Int) (nco : Bool) :
    (0 ≤ min_len → ∃ recs m1,
      ((AdvancedSubsequenceMiner.new min_len max_len).add_sequences
        args).mine_frequent_patterns min_support nco = .ok (recs, m1)) ∧
    ∀ recs m1,
      ((AdvancedSubsequenceMiner.new min_len max_len).add_sequences
        args).mine_frequent_patterns min_support nco = .ok (recs, m1) →
      ∀ r ∈ recs, 0 ≤ r.support ∧ 1 ≤ args.length ∧
        r.support = (r.frequency : ℚ) / (args.length : ℚ) := by
  obtain ⟨hmin, -, htrie, hlen, -⟩ :=
    add_sequences_fields args (AdvancedSubsequenceMiner.new min_len max_len)
  generalize (AdvancedSubsequenceMiner.new min_len max_len).add_sequences args = m at *
  have htrie2 : m.trie = SubsequenceTrie.empty := htrie
  have hlen2 : m.sequence_database.length = args.length := by
    rw [hlen]; simp [AdvancedSubsequenceMiner.new]
  constructor
  · intro h
    have hm : 0 ≤ m.min_length := by rw [hmin]; exact h
    exact ⟨_, _, mine_frequent_patterns_ok m hm min_support nco⟩
  intro recs m1 hmine r hr
  rw [(mine_frequent_patterns_eq hmine).1] at hr
  obtain ⟨⟨q, f, nc⟩, hmem, rfl⟩ := List.mem_map.1 hr
  rw [htrie2] at hmem
  obtain ⟨x, hw, he, -, -, hf, -⟩ :=
    (mem_get_frequent_patterns _ (distinct_labels_after_calls _) _ _ q f nc).1 hmem
  obtain ⟨hfreq, hend⟩ := node_after_calls hw
  have hq := hend.1 he
  have hne : m.sequence_database ≠ [] := by
    intro hnil
    simp [all_calls, hnil] at hq
  have hpos : 1 ≤ args.length := by
    rw [← hlen2]
    exact List.length_pos.2 hne
  have hemp : m.sequence_database.isEmpty = false := by
    cases hdb : m.sequence_database with
    | nil => exact absurd hdb hne
    | cons a l => rfl
  have hf0 : (0 : Int) ≤ f := by rw [hf, hfreq]; exact Int.natCast_nonneg _
  simp only [to_pattern_info, hemp, hlen2]
  refine ⟨?_, hpos, by simp⟩
  simp only [Bool.false_eq_true, if_false]
  apply div_nonneg
  · exact_mod_cast hf0
  · exact Nat.cast_nonneg _

/-- C2 (amended), at an engine with two registered sequences: the call returns and its
records satisfy the bounds. -/
theorem support_nonneg_quotient_witness :
    ∃ recs m1,
      ((AdvancedSubsequenceMiner.new 2 2).add_sequences
        [(["a", "b", "c"], -1), (["a", "b", "d"], -1)]).mine_frequent_patterns 2 false =
          .ok (recs, m1) ∧
      ∀ r ∈ recs, 0 ≤ r.support ∧
        1 ≤ [((["a", "b", "c"] : List String), (-1 : Int)), (["a", "b", "d"], -1)].length ∧
        r.support = (r.frequency : ℚ) /
          ([((["a", "b", "c"] : List String), (-1 : Int)), (["a", "b", "d"], -1)].length : ℚ) := by
  obtain ⟨hret, hall⟩ := support_nonneg_quotient 2 2
    [(["a", "b", "c"], -1), (["a", "b", "d"], -1)] 2 false
  obtain ⟨recs, m1, h⟩ := hret (by decide)
  exact ⟨recs, m1, h, hall recs m1 h⟩

theorem search_pattern_eq_some {t : SubsequenceTrie} {p : List String} {x : TrieNode} :
    t.search_pattern p = some x ↔ t.root.walk p = some x ∧ x.is_end_of_pattern = true := by
  unfold SubsequenceTrie.search_pattern
  cases hw : t.root.walk p with
  | none => simp
  | some y =>
    by_cases he : y.is_end_of_pattern = true
    · simp only [he, if_true, Option.some.injEq]
      constructor
      · rintro rfl; exact ⟨rfl, he⟩
      · rintro ⟨h, -⟩; exact h
    · simp only [he, if_false, Option.some.injEq]
      constructor
      · intro h; cases h
      · rintro ⟨rfl, h⟩; exact absurd h he

theorem length_filter_path_eq_one {l : List (List String × TrieNode)} {p : List String}
    (nd : (l.map Prod.fst).Nodup) (h : p ∈ l.map Prod.fst) :
    (l.filter (fun y => decide (y.1 = p))).length = 1 := by
  induction l with
  | nil => simp at h
  | cons y rest ih =>
    simp only [List.map_cons, List.nodup_cons] at nd
    by_cases hy : y.1 = p
    · have hnone : rest.filter (fun z => decide (z.1 = p)) = [] := by
        rw [List.filter_eq_nil_iff]
        intro z hz hzp
        simp only [decide_eq_true_eq] at hzp
        apply nd.1
        rw [hy, ← hzp]
        exact List.mem_map_of_mem Prod.fst hz
      simp [List.filter_cons, hy, hnone]
    · have hp : p ∈ rest.map Prod.fst := by
        simp only [List.map_cons, List.mem_cons] at h
        rcases h with h | h
        · exact absurd h.symm hy
        · exact h
      simp [List.filter_cons, hy, ih nd.2 hp]

/-- C3: after any list of `insert_pattern` calls on a fresh trie, `search_pattern(p)`
returns a node exactly when `p` is the pattern of one of the calls; for every other `p`,
a proper prefix of an inserted pattern included, it returns `nullptr`. -/
theorem search_pattern_iff_inserted (calls : List InsertCall) (p : List String) :
    ((∃ x, (apply_calls SubsequenceTrie.empty calls).search_pattern p = some x) ↔
      p ∈ calls.map (fun c => c.pattern)) ∧
    (p ∉ calls.map (fun c => c.pattern) ↔
      (apply_calls SubsequenceTrie.empty calls).search_pattern p = none) := by
  have key : (∃ x, (apply_calls SubsequenceTrie.empty calls).search_pattern p = some x) ↔
      p ∈ calls.map (fun c => c.pattern) := by
    constructor
    · rintro ⟨x, hx⟩
      obtain ⟨hw, he⟩ := search_pattern_eq_some.1 hx
      exact (node_after_calls hw).2.1 he
    · intro h
      obtain ⟨x, hw⟩ := walk_of_inserted h
      exact ⟨x, search_pattern_eq_some.2 ⟨hw, (node_after_calls hw).2.2 h⟩⟩
  refine ⟨key, ?_⟩
  rw [← key]
  cases (apply_calls SubsequenceTrie.empty calls).search_pattern p <;> simp

/-- C4: after any list of `insert_pattern` calls on a fresh trie, every node's frequency
counter is the number of calls whose pattern is the node's root path, so it is at least 1
where the end-of-pattern flag is set and 0 where it is not; and further calls that all
insert one pattern `p` leave exactly one node at path `p`, whose counter has grown by the
number of these calls. -/
theorem frequency_counts_insertions (calls : List InsertCall) :
    (∀ q x, (q, x) ∈ nodes_below (apply_calls SubsequenceTrie.empty calls).root [] →
      x.frequency = (insert_count calls q : Int) ∧
      (x.is_end_of_pattern = true → 1 ≤ x.frequency) ∧
      (x.is_end_of_pattern = false → x.frequency = 0)) ∧
    (∀ (more : List InsertCall) (p : List String), more ≠ [] →
      (∀ c ∈ more, c.pattern = p) →
      ((nodes_below (apply_calls (apply_calls SubsequenceTrie.empty calls) more).root []).filter
        (fun y => decide (y.1 = p))).length = 1 ∧
      ∃ x, (apply_calls (apply_calls SubsequenceTrie.empty calls) more).root.walk p = some x ∧
        x.frequency =
          (info_at (apply_calls SubsequenceTrie.empty calls).root p).2.1 + (more.length : Int)) := by
  constructor
  · intro q x hmem
    obtain ⟨p, hp, hw⟩ := (mem_nodes_below _ [] q x (distinct_labels_after_calls calls)).1 hmem
    simp only [List.nil_append] at hp
    subst hp
    obtain ⟨hf, he⟩ := node_after_calls hw
    refine ⟨hf, ?_, ?_⟩
    · intro h
      have := (insert_count_pos_iff calls q).2 (he.1 h)
      rw [hf]
      exact_mod_cast this
    · intro h
      have hn : ¬ 0 < insert_count calls q := by
        rw [insert_count_pos_iff]
        intro hq
        rw [he.2 hq] at h
        cases h
      rw [hf]
      have : insert_count calls q = 0 := by omega
      simp [this]
  · intro more p hne hall
    rw [← apply_calls_append]
    have hmemp : p ∈ (calls ++ more).map (fun c => c.pattern) := by
      obtain ⟨c, hc⟩ := List.exists_mem_of_ne_nil more hne
      exact List.mem_map.2 ⟨c, List.mem_append_right _ hc, hall c hc⟩
    obtain ⟨x, hw⟩ := walk_of_inserted hmemp
    have hd := distinct_labels_after_calls (calls ++ more)
    constructor
    · apply length_filter_path_eq_one (nodup_paths_nodes_below _ [] hd)
      exact List.mem_map.2 ⟨(p, x), (mem_nodes_below _ [] p x hd).2 ⟨p, by simp, hw⟩, rfl⟩
    · refine ⟨x, hw, ?_⟩
      have h1 := frequency_apply_calls more (apply_calls SubsequenceTrie.empty calls) p
      rw [← apply_calls_append, info_at_of_walk hw] at h1
      have h2 : insert_count more p = more.length := by
        unfold insert_count
        rw [List.filter_eq_self.2]
        intro c hc
        simpa using hall c hc
      rw [h2] at h1
      exact h1

/-- C5: on a trie built from a fresh one by `insert_pattern` calls,
`get_frequent_patterns(min_frequency, noncontiguous_only)` returns no pattern twice, and a
record `(p, f, nc)` is returned exactly when `p` was inserted, `f` is its insertion count
with `min_frequency <= f`, `f` and `nc` are the counter and the flag of the node of `p`, and
`nc` is set when `noncontiguous_only` is. -/
theorem get_frequent_patterns_spec (calls : List InsertCall) (min_frequency : Int)
    (noncontiguous_only : Bool) :
    (((apply_calls SubsequenceTrie.empty calls).get_frequent_patterns min_frequency
      noncontiguous_only).map Prod.fst).Nodup ∧
    ∀ (p : List String) (f : Int) (nc : Bool),
      (p, f, nc) ∈ (apply_calls SubsequenceTrie.empty calls).get_frequent_patterns
          min_frequency noncontiguous_only ↔
        (p ∈ calls.map (fun c => c.pattern) ∧ f = (insert_count calls p : Int) ∧
          min_frequency ≤ f ∧ (noncontiguous_only = true → nc = true) ∧
          ∃ x, (apply_calls SubsequenceTrie.empty calls).search_pattern p = some x ∧
            x.frequency = f ∧ x.is_noncontiguous = nc) := by
  have hd := distinct_labels_after_calls calls
  refine ⟨nodup_get_frequent_patterns _ hd _ _, ?_⟩
  intro p f nc
  rw [mem_get_frequent_patterns _ hd]
  constructor
  · rintro ⟨x, hw, he, hmin, hnc, rfl, rfl⟩
    obtain ⟨hf, hend⟩ := node_after_calls hw
    refine ⟨hend.1 he, hf, hmin, ?_, x, search_pattern_eq_some.2 ⟨hw, he⟩, rfl, rfl⟩
    intro h
    rcases hnc with h1 | h1
    · rw [h] at h1; cases h1
    · exact h1
  · rintro ⟨-, -, hmin, hnc, x, hs, rfl, rfl⟩
    obtain ⟨hw, he⟩ := search_pattern_eq_some.1 hs
    refine ⟨x, hw, he, hmin, ?_, rfl, rfl⟩
    cases noncontiguous_only
    · exact Or.inl rfl
    · exact Or.inr (hnc rfl)

/-- C6: for `k >= 0` and every engine state, `mine_frequent_patterns` returns whenever
`min_length` is not negative, and whenever it returns `n` records `find_top_k_patterns`
(same state, same arguments) returns `min(k, n)` records and leaves the same state; the
records of `mine_frequent_patterns` are, up to order, the returned ones followed by the
left-out ones, and no left-out record is more frequent than a returned one. -/
theorem find_top_k_patterns_spec (m : AdvancedSubsequenceMiner) (k min_support : Int)
    (noncontiguous_only : Bool) (hk : 0 ≤ k) :
    (0 ≤ m.min_length → ∃ recs m1,
      m.mine_frequent_patterns min_support noncontiguous_only = .ok (recs, m1)) ∧
    ∀ recs m1, m.mine_frequent_patterns min_support noncontiguous_only = .ok (recs, m1) →
      ∃ top, m.find_top_k_patterns k min_support noncontiguous_only = .ok (top, m1) ∧
        top.length = min k.toNat recs.length ∧
        ∃ rest, recs.Perm (top ++ rest) ∧
          ∀ r ∈ top, ∀ x ∈ rest, x.frequency ≤ r.frequency := by
  refine ⟨fun hm => ⟨_, _, mine_frequent_patterns_ok m hm min_support noncontiguous_only⟩, ?_⟩
  intro recs m1 hmine
  by_cases hle : (recs.length : Int) ≤ k
  · refine ⟨recs, ?_, ?_, [], by simp, by simp⟩
    · simp only [find_top_k_patterns, hmine, hle, if_true]
    · have : recs.length ≤ k.toNat := by omega
      omega
  · have hk2 : ¬ k < 0 := not_lt.2 hk
    refine ⟨(recs.insertionSort info_ge).take k.toNat, ?_, ?_,
      (recs.insertionSort info_ge).drop k.toNat, ?_, ?_⟩
    · simp only [find_top_k_patterns, hmine, hle, hk2, if_false]
    · rw [List.length_take, List.length_insertionSort]
    · rw [List.take_append_drop]
      exact (List.perm_insertionSort info_ge recs).symm
    · have hs : (recs.insertionSort info_ge).Pairwise info_ge :=
        List.sorted_insertionSort info_ge recs
      rw [← List.take_append_drop k.toNat (recs.insertionSort info_ge),
        List.pairwise_append] at hs
      intro r hr x hx
      exact hs.2.2 r hr x hx

/-- C6, at the scenario engine with `k = 2`: the call returns two records. -/
theorem find_top_k_patterns_spec_witness :
    (0 : Int) ≤ 2 ∧ ∃ recs m1 top,
      scenario_engine.mine_frequent_patterns 1 false = .ok (recs, m1) ∧
      scenario_engine.find_top_k_patterns 2 1 false = .ok (top, m1) ∧
      top.length = min (2 : Int).toNat recs.length ∧
      ∃ rest, recs.Perm (top ++ rest) ∧
        ∀ r ∈ top, ∀ x ∈ rest, x.frequency ≤ r.frequency := by
  refine ⟨by decide, ?_⟩
  obtain ⟨hret, hall⟩ := find_top_k_patterns_spec scenario_engine 2 1 false (by decide)
  obtain ⟨recs, m1, hmine⟩ := hret (by decide)
  obtain ⟨top, h1, h2, h3⟩ := hall recs m1 hmine
  exact ⟨recs, m1, top, hmine, h1, h2, h3⟩

/-- C7: for every trie the list `get_frequent_patterns` returns is ordered by frequency,
largest first; `mine_frequent_patterns` returns whenever `min_length` is not negative, and
whenever it returns, its records stand in the order `get_frequent_patterns` gave them on
the trie it leaves, so they are ordered by frequency, largest first. -/
theorem results_sorted_by_frequency (t : SubsequenceTrie) (min_frequency : Int) (nco : Bool)
    (m : AdvancedSubsequenceMiner) (min_support : Int) (noncontiguous_only : Bool) :
    (t.get_frequent_patterns min_frequency nco).Pairwise (fun a b => b.2.1 ≤ a.2.1) ∧
    (0 ≤ m.min_length → ∃ recs m1,
      m.mine_frequent_patterns min_support noncontiguous_only = .ok (recs, m1)) ∧
    ∀ recs m1, m.mine_frequent_patterns min_support noncontiguous_only = .ok (recs, m1) →
      recs.map (fun r => (r.pattern, r.frequency, r.is_noncontiguous)) =
        m1.trie.get_frequent_patterns min_support noncontiguous_only ∧
      recs.Pairwise (fun a b => b.frequency ≤ a.frequency) := by
  refine ⟨sort_by_frequency_sorted _,
    fun hm => ⟨_, _, mine_frequent_patterns_ok m hm min_support noncontiguous_only⟩, ?_⟩
  intro recs m1 hmine
  obtain ⟨hrecs, htrie, -⟩ := mine_frequent_patterns_eq hmine
  rw [hrecs, htrie]
  constructor
  · simp only [List.map_map]
    conv_rhs => rw [← List.map_id ((apply_calls m.trie m.all_calls).get_frequent_patterns
      min_support noncontiguous_only)]
    apply List.map_congr_left
    intro a _
    simp [to_pattern_info]
  · rw [List.pairwise_map]
    exact sort_by_frequency_sorted _

/-- C7, at the empty trie and the scenario engine: the call returns a sorted list. -/
theorem results_sorted_by_frequency_witness :
    (SubsequenceTrie.empty.get_frequent_patterns 1 false).Pairwise
      (fun a b => b.2.1 ≤ a.2.1) ∧
    ∃ recs m1, scenario_engine.mine_frequent_patterns 2 false = .ok (recs, m1) ∧
      recs.map (fun r => (r.pattern, r.frequency, r.is_noncontiguous)) =
        m1.trie.get_frequent_patterns 2 false ∧
      recs.Pairwise (fun a b => b.frequency ≤ a.frequency) := by
  obtain ⟨hsorted, hret, hall⟩ :=
    results_sorted_by_frequency SubsequenceTrie.empty 1 false scenario_engine 2 false
  obtain ⟨recs, m1, h⟩ := hret (by decide)
  exact ⟨hsorted, recs, m1, h, hall recs m1 h⟩

/-- A record returned for a trie built from the empty one names an inserted pattern and
carries its insertion count. -/
theorem mem_get_frequent_patterns_built {calls : List InsertCall} {min_frequency : Int}
    {nco : Bool} {p : List String} {f : Int} {nc : Bool}
    (h : (p, f, nc) ∈ (apply_calls SubsequenceTrie.empty calls).get_frequent_patterns
      min_frequency nco) :
    p ∈ calls.map (fun c => c.pattern) ∧ f = (insert_count calls p : Int) := by
  obtain ⟨x, hw, he, -, -, rfl, -⟩ :=
    (mem_get_frequent_patterns _ (distinct_labels_after_calls calls) _ _ p f nc).1 h
  obtain ⟨hf, hend⟩ := node_after_calls hw
  exact ⟨hend.1 he, hf⟩

/-- Every inserted pattern has a record in the query with threshold 1 and no filter. -/
theorem exists_get_frequent_patterns_built {calls : List InsertCall} {p : List String}
    (h : p ∈ calls.map (fun c => c.pattern)) :
    ∃ f nc, (p, f, nc) ∈
      (apply_calls SubsequenceTrie.empty calls).get_frequent_patterns 1 false := by
  obtain ⟨x, hw⟩ := walk_of_inserted h
  obtain ⟨hf, hend⟩ := node_after_calls hw
  refine ⟨x.frequency, x.is_noncontiguous,
    (mem_get_frequent_patterns _ (distinct_labels_after_calls calls) _ _ p _ _).2
      ⟨x, hw, hend.2 h, ?_, Or.inl rfl, rfl, rfl⟩⟩
  rw [hf]
  have := (insert_count_pos_iff calls p).2 h
  exact_mod_cast this

/-- The state `mine_frequent_patterns` leaves differs from the old one in the trie and
the statistics only. -/
theorem mine_frequent_patterns_state (m : AdvancedSubsequenceMiner) (hm : 0 ≤ m.min_length)
    (min_support : Int) (nco : Bool) :
    ∃ m1, m.mine_frequent_patterns min_support nco =
        .ok (((apply_calls m.trie m.all_calls).get_frequent_patterns min_support nco).map
          m.to_pattern_info, m1) ∧
      m1.min_length = m.min_length ∧ m1.all_calls = m.all_calls ∧
      m1.to_pattern_info = m.to_pattern_info ∧
      m1.trie = apply_calls m.trie m.all_calls :=
  ⟨_, mine_frequent_patterns_ok m hm min_support nco, rfl, rfl, rfl, rfl⟩

/-- C8: on a fresh engine with `1 <= min_length` and any registered sequences, two calls
`mine_frequent_patterns(1)` in a row return the same set of patterns, and each pattern's
frequency in the second result is twice its frequency in the first. -/
theorem mine_twice_doubles (min_len max_len : Int) (h : 1 ≤ min_len)
    (args : List (List String × Int)) :
    ∃ recs1 m1 recs2 m2,
      ((AdvancedSubsequenceMiner.new min_len max_len).add_sequences
        args).mine_frequent_patterns 1 false = .ok (recs1, m1) ∧
      m1.mine_frequent_patterns 1 false = .ok (recs2, m2) ∧
      (∀ p, (∃ r ∈ recs1, r.pattern = p) ↔ (∃ r ∈ recs2, r.pattern = p)) ∧
      (∀ r1 ∈ recs1, ∀ r2 ∈ recs2, r1.pattern = r2.pattern →
        r2.frequency = 2 * r1.frequency) := by
  obtain ⟨hmin, -, htrie, -, -⟩ :=
    add_sequences_fields args (AdvancedSubsequenceMiner.new min_len max_len)
  generalize (AdvancedSubsequenceMiner.new min_len max_len).add_sequences args = m at *
  have hm : 0 ≤ m.min_length := by
    rw [hmin]
    exact le_trans (by decide) h
  have htrie2 : m.trie = SubsequenceTrie.empty := htrie
  obtain ⟨m1, h1, hmin1, hcalls1, hinfo1, htrie1⟩ := mine_frequent_patterns_state m hm 1 false
  have h2 := mine_frequent_patterns_ok m1 (hmin1 ▸ hm) 1 false
  rw [htrie2] at h1 htrie1
  rw [htrie1, hcalls1, hinfo1, ← apply_calls_append] at h2
  refine ⟨_, m1, _, _, h1, h2, ?_, ?_⟩
  · intro p
    constructor
    · rintro ⟨r, hr, rfl⟩
      obtain ⟨⟨q, f, nc⟩, hmem, rfl⟩ := List.mem_map.1 hr
      have hq := (mem_get_frequent_patterns_built hmem).1
      have hq2 : q ∈ (m.all_calls ++ m.all_calls).map (fun c => c.pattern) := by
        rw [List.map_append]
        exact List.mem_append_left _ hq
      obtain ⟨f2, nc2, h2⟩ := exists_get_frequent_patterns_built hq2
      exact ⟨_, List.mem_map_of_mem _ h2, rfl⟩
    · rintro ⟨r, hr, rfl⟩
      obtain ⟨⟨q, f, nc⟩, hmem, rfl⟩ := List.mem_map.1 hr
      have hq := (mem_get_frequent_patterns_built hmem).1
      have hq2 : q ∈ m.all_calls.map (fun c => c.pattern) := by
        rw [List.map_append, List.mem_append] at hq
        exact hq.elim id id
      obtain ⟨f2, nc2, h2⟩ := exists_get_frequent_patterns_built hq2
      exact ⟨_, List.mem_map_of_mem _ h2, rfl⟩
  · intro r1 hr1 r2 hr2 hp
    obtain ⟨⟨q1, f1, nc1⟩, hmem1, rfl⟩ := List.mem_map.1 hr1
    obtain ⟨⟨q2, f2, nc2⟩, hmem2, rfl⟩ := List.mem_map.1 hr2
    have e1 := (mem_get_frequent_patterns_built hmem1).2
    have e2 := (mem_get_frequent_patterns_built hmem2).2
    simp only [to_pattern_info] at hp ⊢
    subst hp
    rw [e1, e2, insert_count_append]
    push_cast
    ring

/-- C8, at the scenario engine. -/
theorem mine_twice_doubles_witness :
    (1 : Int) ≤ 2 ∧ ∃ recs1 m1 recs2 m2,
      scenario_engine.mine_frequent_patterns 1 false = .ok (recs1, m1) ∧
      m1.mine_frequent_patterns 1 false = .ok (recs2, m2) ∧
      (∀ p, (∃ r ∈ recs1, r.pattern = p) ↔ (∃ r ∈ recs2, r.pattern = p)) ∧
      (∀ r1 ∈ recs1, ∀ r2 ∈ recs2, r1.pattern = r2.pattern →
        r2.frequency = 2 * r1.frequency) :=
  ⟨by decide, mine_twice_doubles 2 2 (by decide) _⟩

/-- C9 (as stated, refuted): on the fresh trie, `insert_pattern([], 0, 0, false)` sets the
root's end-of-pattern flag, raises the root's frequency and the distinct-pattern counter
from 0 to 1, and `search_pattern([])` then returns a node. -/
theorem insert_empty_pattern_not_noop :
    SubsequenceTrie.empty.root.is_end_of_pattern = false ∧
    SubsequenceTrie.empty.root.frequency = 0 ∧
    SubsequenceTrie.empty.get_pattern_count = 0 ∧
    (SubsequenceTrie.empty.insert_pattern [] 0 0 false).root.is_end_of_pattern = true ∧
    (SubsequenceTrie.empty.insert_pattern [] 0 0 false).root.frequency = 1 ∧
    (SubsequenceTrie.empty.insert_pattern [] 0 0 false).get_pattern_count = 1 ∧
    ((SubsequenceTrie.empty.insert_pattern [] 0 0 false).search_pattern []).isSome = true := by
  decide

/-- C9 (amended): in every trie state `insert_pattern([], id, pos, flag)` acts on the root
as on any terminal node: it sets the end-of-pattern flag, adds 1 to the frequency, stores
`flag`, adds 1 to the distinct-pattern counter when the flag was unset before, leaves the
children and the positions as they were, and `search_pattern([])` returns the root
afterwards. -/
theorem insert_empty_pattern_spec (t : SubsequenceTrie) (sequence_id start_pos : Int)
    (flag : Bool) :
    (t.insert_pattern [] sequence_id start_pos flag).root.is_end_of_pattern = true ∧
    (t.insert_pattern [] sequence_id start_pos flag).root.frequency = t.root.frequency + 1 ∧
    (t.insert_pattern [] sequence_id start_pos flag).root.is_noncontiguous = flag ∧
    (t.insert_pattern [] sequence_id start_pos flag).get_pattern_count =
      (if t.root.is_end_of_pattern = true then t.get_pattern_count
        else t.get_pattern_count + 1) ∧
    (t.insert_pattern [] sequence_id start_pos flag).root.children = t.root.children ∧
    (t.insert_pattern [] sequence_id start_pos flag).root.positions = t.root.positions ∧
    (t.insert_pattern [] sequence_id start_pos flag).search_pattern [] =
      some (t.insert_pattern [] sequence_id start_pos flag).root := by
  obtain ⟨⟨cs, e, f, ps, c, nc⟩, n⟩ := t
  cases e <;>
    simp [SubsequenceTrie.insert_pattern, TrieNode.insert_path, TrieNode.is_end_of_pattern,
      TrieNode.frequency, TrieNode.is_noncontiguous, TrieNode.children, TrieNode.positions,
      SubsequenceTrie.get_pattern_count, SubsequenceTrie.search_pattern, TrieNode.walk]

/-! ## The contiguous pass -/

theorem mem_int_range {lo hi x : Int} : x ∈ int_range lo hi ↔ lo ≤ x ∧ x ≤ hi := by
  unfold int_range
  rw [List.mem_map]
  constructor
  · rintro ⟨k, hk, rfl⟩
    rw [List.mem_range] at hk
    omega
  · rintro ⟨h1, h2⟩
    refine ⟨(x - lo).toNat, ?_, ?_⟩
    · rw [List.mem_range]
      omega
    · omega

theorem nodup_int_range (lo hi : Int) : (int_range lo hi).Nodup := by
  unfold int_range
  apply List.Nodup.map _ (List.nodup_range _)
  intro a b hab
  simpa using hab

theorem filter_flatMap_single {α β : Type} (xs : List α) (f : α → List β) (p : β → Bool)
    (a : α) (hnd : xs.Nodup) (ha : a ∈ xs) (hself : ∀ y ∈ f a, p y = true)
    (hother : ∀ x ∈ xs, x ≠ a → ∀ y ∈ f x, p y = false) :
    (xs.flatMap f).filter p = f a := by
  induction xs with
  | nil => simp at ha
  | cons x rest ih =>
    rw [List.nodup_cons] at hnd
    rw [List.flatMap_cons, List.filter_append]
    by_cases hx : x = a
    · subst hx
      have h1 : (f x).filter p = f x := List.filter_eq_self.2 hself
      have h2 : (rest.flatMap f).filter p = [] := by
        rw [List.filter_eq_nil_iff]
        intro y hy
        obtain ⟨z, hz, hyz⟩ := List.mem_flatMap.1 hy
        have hzx : z ≠ x := fun e => hnd.1 (e ▸ hz)
        simp [hother z (List.mem_cons_of_mem _ hz) hzx y hyz]
      rw [h1, h2, List.append_nil]
    · have h1 : (f x).filter p = [] := by
        rw [List.filter_eq_nil_iff]
        intro y hy
        simp [hother x (List.mem_cons_self _ _) hx y hy]
      have ha2 : a ∈ rest := by
        rcases List.mem_cons.1 ha with h | h
        · exact absurd h.symm hx
        · exact h
      rw [h1, List.nil_append]
      exact ih hnd.2 ha2 (fun z hz hza => hother z (List.mem_cons_of_mem _ hz) hza)

theorem length_window (sequence : List String) (start length : Int) (h0 : 0 ≤ start)
    (h1 : 0 ≤ length) (h2 : start ≤ (sequence.length : Int) - length) :
    (((sequence.drop start.toNat).take length.toNat).length : Int) = length := by
  rw [List.length_take, List.length_drop]
  omega

/-- The calls of the contiguous pass when `min_length` is not negative: those of a length
`l >= 1` in range are the slices of length `l` in start order, and every call has a length
in range and the flag false. -/
theorem contiguous_calls_of_nonneg (min_length max_length : Int) (S : List String)
    (seq_id : Int) (h0 : 0 ≤ min_length) :
    (∀ l : Nat, 1 ≤ l → min_length ≤ (l : Int) → (l : Int) ≤ min max_length (S.length : Int) →
      (contiguous_calls min_length max_length S seq_id).filter
          (fun c => decide (c.pattern.length = l)) =
        (List.range (S.length - l + 1)).map
          (fun s => ⟨(S.drop s).take l, seq_id, (s : Int), false⟩)) ∧
    (∀ c ∈ contiguous_calls min_length max_length S seq_id,
      min_length ≤ (c.pattern.length : Int) ∧
      (c.pattern.length : Int) ≤ min max_length (S.length : Int) ∧
      c.is_noncontiguous = false) := by
  constructor
  · intro l hl1 hlmin hlmax
    have hln : l ≤ S.length := by
      have := le_trans hlmax (min_le_right _ _)
      exact_mod_cast this
    unfold contiguous_calls
    rw [filter_flatMap_single _ _ _ (l : Int) (nodup_int_range _ _)
      (mem_int_range.2 ⟨hlmin, hlmax⟩)]
    · unfold int_range
      rw [List.map_map]
      have e : ((S.length : Int) - (l : Int) + 1 - 0).toNat = S.length - l + 1 := by omega
      rw [e]
      apply List.map_congr_left
      intro k _
      simp
    · intro y hy
      obtain ⟨start, hs, rfl⟩ := List.mem_map.1 hy
      rw [mem_int_range] at hs
      have := length_window S start (l : Int) hs.1 (by omega) hs.2
      simp only [decide_eq_true_eq]
      exact_mod_cast this
    · intro x hx hxl y hy
      obtain ⟨start, hs, rfl⟩ := List.mem_map.1 hy
      rw [mem_int_range] at hx hs
      have := length_window S start x hs.1 (by omega) hs.2
      simp only [decide_eq_false_iff_not]
      intro hlen
      apply hxl
      rw [← this, hlen]
  · intro c hc
    unfold contiguous_calls at hc
    obtain ⟨x, hx, hy⟩ := List.mem_flatMap.1 hc
    obtain ⟨start, hs, rfl⟩ := List.mem_map.1 hy
    rw [mem_int_range] at hx hs
    have := length_window S start x hs.1 (by omega) hs.2
    simp only
    rw [this]
    exact ⟨hx.1, hx.2, trivial⟩


/-- With a negative `min_length` that the contiguous loop reaches, the first slice cannot
be built: `generate_subsequences` does not return, whatever the trie. -/
theorem generate_subsequences_negative (m : AdvancedSubsequenceMiner) (trie : SubsequenceTrie)
    (S : List String) (seq_id : Int) (hneg : m.min_length < 0)
    (hrun : m.min_length ≤ min m.max_length (S.length : Int)) :
    m.generate_subsequences trie S seq_id = .error .invalid_range := by
  unfold AdvancedSubsequenceMiner.generate_subsequences
  simp only
  rw [if_pos ⟨hneg, hrun⟩]

/-- When `generate_subsequences` returns, `min_length` is not negative or the contiguous
pass makes no call. -/
theorem nonneg_or_no_contiguous_call {m : AdvancedSubsequenceMiner} {trie t1 : SubsequenceTrie}
    {S : List String} {seq_id : Int} (h : m.generate_subsequences trie S seq_id = .ok t1) :
    0 ≤ m.min_length ∨ contiguous_calls m.min_length m.max_length S seq_id = [] := by
  by_cases h0 : 0 ≤ m.min_length
  · exact Or.inl h0
  · right
    by_cases hg : m.min_length ≤ min m.max_length (S.length : Int)
    · unfold AdvancedSubsequenceMiner.generate_subsequences at h
      simp only at h
      rw [if_pos ⟨not_le.1 h0, hg⟩] at h
      cases h
    · unfold contiguous_calls int_range
      have e : (min m.max_length (S.length : Int) + 1 - m.min_length).toNat = 0 := by omega
      simp [e]

theorem last_call_nil (p : List String) : last_call [] p = none := rfl

theorem last_call_cons (c : InsertCall) (cs : List InsertCall) (p : List String) :
    last_call (c :: cs) p =
      if c.pattern = p then some ((last_call cs p).getD c) else last_call cs p := by
  unfold last_call
  by_cases h : c.pattern = p
  · simp [List.filter_cons, h, List.getLast?_cons]
  · simp [List.filter_cons, h]

theorem last_call_append (l1 l2 : List InsertCall) (p : List String) :
    last_call (l1 ++ l2) p = (last_call l2 p).or (last_call l1 p) := by
  unfold last_call
  rw [List.filter_append, List.getLast?_append]

theorem last_call_mem {calls : List InsertCall} {p : List String} {c : InsertCall}
    (h : last_call calls p = some c) : c ∈ calls ∧ c.pattern = p := by
  have := List.mem_of_getLast?_eq_some h
  rw [List.mem_filter] at this
  exact ⟨this.1, by simpa using this.2⟩

theorem last_call_eq_none_iff (calls : List InsertCall) (p : List String) :
    last_call calls p = none ↔ p ∉ calls.map (fun c => c.pattern) := by
  unfold last_call
  rw [List.getLast?_eq_none_iff, List.filter_eq_nil_iff]
  constructor
  · intro h hp
    obtain ⟨c, hc, rfl⟩ := List.mem_map.1 hp
    exact h c hc (by simp)
  · intro h c hc hcp
    exact h (List.mem_map.2 ⟨c, hc, by simpa using hcp⟩)

theorem exists_last_call {calls : List InsertCall} {p : List String}
    (h : p ∈ calls.map (fun c => c.pattern)) : ∃ c, last_call calls p = some c := by
  cases hl : last_call calls p with
  | none => exact absurd h ((last_call_eq_none_iff calls p).1 hl)
  | some c => exact ⟨c, rfl⟩

/-- Non-contiguous flag at path `p` after a list of insertions: the flag passed by the
last insertion of exactly `p`, or the old flag when there was none. -/
theorem flag_apply_calls (calls : List InsertCall) :
    ∀ (t : SubsequenceTrie) (p : List String),
      (info_at (apply_calls t calls).root p).2.2 =
        match last_call calls p with
        | some c => c.is_noncontiguous
        | none => (info_at t.root p).2.2 := by
  induction calls with
  | nil => intro t p; simp [apply_calls_nil, last_call_nil]
  | cons c cs ih =>
    intro t p
    rw [apply_calls_cons, ih, insert_pattern_root, info_at_insert_path, last_call_cons]
    by_cases h : c.pattern = p
    · subst h
      cases hl : last_call cs c.pattern <;> simp
    · have h1 : ¬ p = c.pattern := fun h1 => h h1.symm
      cases hl : last_call cs p <;> simp [h, h1]

/-- A record returned for a trie built from the empty one carries the flag passed by the
last insertion of its pattern. -/
theorem record_flag_built {calls : List InsertCall} {min_frequency : Int} {nco : Bool}
    {q : List String} {f : Int} {nc : Bool}
    (h : (q, f, nc) ∈ (apply_calls SubsequenceTrie.empty calls).get_frequent_patterns
      min_frequency nco) :
    ∃ c, last_call calls q = some c ∧ nc = c.is_noncontiguous := by
  obtain ⟨x, hw, he, -, -, -, rfl⟩ :=
    (mem_get_frequent_patterns _ (distinct_labels_after_calls calls) _ _ q f nc).1 h
  obtain ⟨c, hc⟩ := exists_last_call ((node_after_calls hw).2.1 he)
  refine ⟨c, hc, ?_⟩
  have := flag_apply_calls calls SubsequenceTrie.empty q
  rw [info_at_of_walk hw, hc] at this
  exact this

theorem get_frequent_patterns_empty (min_frequency : Int) (nco : Bool) :
    SubsequenceTrie.empty.get_frequent_patterns min_frequency nco = [] := by
  simp [SubsequenceTrie.get_frequent_patterns, SubsequenceTrie.empty, TrieNode.empty, dfs,
    dfs_children, sort_by_frequency]

/-- C11 (as stated, refuted): with `min_length = max_length = 2`, the sequence `[a, b, c]`
and then a sequence of 21 elements starting with `a, c`, the pattern `a,c` is inserted with
the flag true (bitmask 5 of the first sequence) and later with the flag false (first
window of the second sequence); its record has `is_noncontiguous = false`. -/
theorem flag_overwritten_by_later_call :
    ∃ recs m1, overwritten_engine.mine_frequent_patterns 1 false = .ok (recs, m1) ∧
      (∃ c ∈ overwritten_engine.all_calls, c.pattern = ["a", "c"] ∧
        c.is_noncontiguous = true) ∧
      (∃ r ∈ recs, r.pattern = ["a", "c"]) ∧
      (∀ r ∈ recs, r.pattern = ["a", "c"] → r.is_noncontiguous = false) :=
  ⟨_, _, mine_frequent_patterns_ok overwritten_engine (by decide) 1 false, by decide!⟩

/-- C11 (amended): on a fresh engine with any registered sequences a single
`mine_frequent_patterns` call returns whenever `min_length` is not negative, and every
record it returns carries the flag passed by the last insertion of its pattern made during
the call. -/
theorem record_flag_is_last_write (min_len max_len : Int) (args : List (List String × Int))
    (min_support : Int) (nco : Bool) :
    (0 ≤ min_len → ∃ recs m1,
      ((AdvancedSubsequenceMiner.new min_len max_len).add_sequences
        args).mine_frequent_patterns min_support nco = .ok (recs, m1)) ∧
    ∀ recs m1,
      ((AdvancedSubsequenceMiner.new min_len max_len).add_sequences
        args).mine_frequent_patterns min_support nco = .ok (recs, m1) →
      ∀ r ∈ recs, ∃ c,
        last_call ((AdvancedSubsequenceMiner.new min_len max_len).add_sequences
          args).all_calls r.pattern = some c ∧
        r.is_noncontiguous = c.is_noncontiguous := by
  obtain ⟨hmin, -, htrie, -, -⟩ :=
    add_sequences_fields args (AdvancedSubsequenceMiner.new min_len max_len)
  generalize (AdvancedSubsequenceMiner.new min_len max_len).add_sequences args = m at *
  have htrie2 : m.trie = SubsequenceTrie.empty := htrie
  constructor
  · intro h
    have hm : 0 ≤ m.min_length := by rw [hmin]; exact h
    exact ⟨_, _, mine_frequent_patterns_ok m hm min_support nco⟩
  intro recs m1 hmine r hr
  rw [(mine_frequent_patterns_eq hmine).1] at hr
  obtain ⟨⟨q, f, nc⟩, hmem, rfl⟩ := List.mem_map.1 hr
  rw [htrie2] at hmem
  exact record_flag_built hmem

/-- C12: after any list of `insert_pattern` calls on any trie, if `c` is the last of the
calls that insert `p`, the node of `p` exists and its non-contiguous flag is the flag
passed by `c`, whatever the earlier calls passed and whatever other patterns were
inserted. -/
theorem flag_is_last_write (t : SubsequenceTrie) (calls : List InsertCall) (p : List String)
    (c : InsertCall) (h : last_call calls p = some c) :
    ∃ x, (apply_calls t calls).root.walk p = some x ∧
      x.is_noncontiguous = c.is_noncontiguous := by
  have hflag := flag_apply_calls calls t p
  have hend := end_flag_apply_calls calls t p
  have hp : p ∈ calls.map (fun c => c.pattern) := by
    by_contra hp
    rw [(last_call_eq_none_iff calls p).2 hp] at h
    cases h
  rw [h] at hflag
  cases hw : (apply_calls t calls).root.walk p with
  | none =>
    simp only [info_at, hw] at hend
    simp [hp] at hend
  | some x =>
    rw [info_at_of_walk hw] at hflag
    exact ⟨x, rfl, hflag⟩

/-- C12, for three calls on the fresh trie: `a,b` with the flag true, `c` with the flag
true, `a,b` with the flag false; the node of `a,b` ends with the flag false. -/
theorem flag_is_last_write_witness :
    last_call [⟨["a", "b"], 0, 0, true⟩, ⟨["c"], 0, 2, true⟩, ⟨["a", "b"], 1, 0, false⟩]
      ["a", "b"] = some ⟨["a", "b"], 1, 0, false⟩ ∧
    ∃ x, (apply_calls SubsequenceTrie.empty
        [⟨["a", "b"], 0, 0, true⟩, ⟨["c"], 0, 2, true⟩, ⟨["a", "b"], 1, 0, false⟩]).root.walk
          ["a", "b"] = some x ∧
      x.is_noncontiguous = false :=
  ⟨by decide, flag_is_last_write SubsequenceTrie.empty
    [⟨["a", "b"], 0, 0, true⟩, ⟨["c"], 0, 2, true⟩, ⟨["a", "b"], 1, 0, false⟩] ["a", "b"]
    ⟨["a", "b"], 1, 0, false⟩ (by decide)⟩

theorem contiguous_calls_flag {min_length max_length : Int} {S : List String} {seq_id : Int}
    {c : InsertCall} (h : c ∈ contiguous_calls min_length max_length S seq_id) :
    c.is_noncontiguous = false := by
  unfold contiguous_calls at h
  obtain ⟨x, -, hy⟩ := List.mem_flatMap.1 h
  obtain ⟨start, -, rfl⟩ := List.mem_map.1 hy
  rfl

theorem noncontiguous_calls_flag {min_length max_length : Int} {S : List String}
    {seq_id : Int} {c : InsertCall}
    (h : c ∈ noncontiguous_calls min_length max_length S seq_id) :
    c.is_noncontiguous = true := by
  unfold noncontiguous_calls at h
  obtain ⟨i, -, hi⟩ := List.mem_filterMap.1 h
  simp only at hi
  split at hi
  · cases hi
    rfl
  · cases hi

theorem mem_all_calls {m : AdvancedSubsequenceMiner} {c : InsertCall} :
    c ∈ m.all_calls ↔ ∃ sd ∈ m.sequence_database, c ∈ m.generate_calls sd.sequence sd.id := by
  unfold all_calls
  exact List.mem_flatMap

theorem sequence_mem_args {args : List (List String × Int)} {m : AdvancedSubsequenceMiner}
    (hdb : m.sequence_database.map (fun sd => sd.sequence) = args.map Prod.fst)
    {sd : SequenceData} (h : sd ∈ m.sequence_database) : ∃ a ∈ args, a.1 = sd.sequence := by
  have : sd.sequence ∈ m.sequence_database.map (fun sd => sd.sequence) :=
    List.mem_map.2 ⟨sd, h, rfl⟩
  rw [hdb] at this
  obtain ⟨a, ha, hs⟩ := List.mem_map.1 this
  exact ⟨a, ha, hs⟩

/-- C13: on a fresh engine with `1 <= min_length` whose registered sequences all have more
than 20 elements, a single `mine_frequent_patterns` call returns, for every `min_support`
and both filter values, no record with `is_noncontiguous = true`; with the filter set it
returns the empty list. -/
theorem long_sequences_give_no_noncontiguous (min_len max_len : Int) (h : 1 ≤ min_len)
    (args : List (List String × Int)) (hlong : ∀ a ∈ args, 20 < a.1.length)
    (min_support : Int) :
    (∀ nco, ∃ recs m1,
      ((AdvancedSubsequenceMiner.new min_len max_len).add_sequences
        args).mine_frequent_patterns min_support nco = .ok (recs, m1) ∧
      ∀ r ∈ recs, r.is_noncontiguous = false) ∧
    ∃ m2, ((AdvancedSubsequenceMiner.new min_len max_len).add_sequences
        args).mine_frequent_patterns min_support true = .ok ([], m2) := by
  obtain ⟨hmin, -, htrie, -, hdb⟩ :=
    add_sequences_fields args (AdvancedSubsequenceMiner.new min_len max_len)
  generalize (AdvancedSubsequenceMiner.new min_len max_len).add_sequences args = m at *
  have hm : 0 ≤ m.min_length := by
    rw [hmin]
    exact le_trans (by decide) h
  have htrie2 : m.trie = SubsequenceTrie.empty := htrie
  have hdb2 : m.sequence_database.map (fun sd => sd.sequence) = args.map Prod.fst := by
    rw [hdb]
    simp [AdvancedSubsequenceMiner.new]
  have hflag : ∀ c ∈ m.all_calls, c.is_noncontiguous = false := by
    intro c hc
    obtain ⟨sd, hsd, hc2⟩ := mem_all_calls.1 hc
    obtain ⟨a, ha, has⟩ := sequence_mem_args hdb2 hsd
    have hl : ¬ (sd.sequence.length : Int) ≤ 20 := by
      have := hlong a ha
      rw [has] at this
      omega
    unfold generate_calls at hc2
    rw [if_neg hl, List.append_nil] at hc2
    exact contiguous_calls_flag hc2
  have hrec : ∀ nco q f nc,
      (q, f, nc) ∈ (apply_calls SubsequenceTrie.empty m.all_calls).get_frequent_patterns
        min_support nco → nc = false := by
    intro nco q f nc hmem
    obtain ⟨c, hc, rfl⟩ := record_flag_built hmem
    exact hflag c (last_call_mem hc).1
  have hmine := fun nco => mine_frequent_patterns_ok m hm min_support nco
  rw [htrie2] at hmine
  constructor
  · intro nco
    refine ⟨_, _, hmine nco, ?_⟩
    intro r hr
    obtain ⟨⟨q, f, nc⟩, hmem, rfl⟩ := List.mem_map.1 hr
    exact hrec nco q f nc hmem
  · have hnil : (apply_calls SubsequenceTrie.empty m.all_calls).get_frequent_patterns
        min_support true = [] := by
      rw [List.eq_nil_iff_forall_not_mem]
      rintro ⟨q, f, nc⟩ hmem
      have h1 := hrec true q f nc hmem
      obtain ⟨x, -, -, -, hx, -, rfl⟩ :=
        (mem_get_frequent_patterns _ (distinct_labels_after_calls _) _ _ q f _).1 hmem
      rcases hx with hx | hx
      · cases hx
      · rw [hx] at h1
        cases h1
    have h2 := hmine true
    rw [hnil] at h2
    exact ⟨_, h2⟩

/-- C13, for one registered sequence of 21 equal elements and `min_support = 1`. -/
theorem long_sequences_give_no_noncontiguous_witness :
    (1 : Int) ≤ 2 ∧ (∀ a ∈ [(List.replicate 21 "a", (-1 : Int))], 20 < a.1.length) ∧
    (∀ nco, ∃ recs m1, repeated_engine.mine_frequent_patterns 1 nco = .ok (recs, m1) ∧
      ∀ r ∈ recs, r.is_noncontiguous = false) ∧
    ∃ m2, repeated_engine.mine_frequent_patterns 1 true = .ok ([], m2) :=
  ⟨by decide, by decide,
    long_sequences_give_no_noncontiguous 2 2 (by decide) [(List.replicate 21 "a", -1)]
      (by decide) 1⟩

theorem add_sequences_database (args : List (List String × Int)) :
    ∀ m : AdvancedSubsequenceMiner,
      (m.add_sequences args).sequence_database =
        m.sequence_database ++ (args.enumFrom m.sequence_database.length).map (fun x =>
          ⟨if x.2.2 = -1 then (x.1 : Int) else x.2.2, x.2.1, (x.2.1.length : Int)⟩) := by
  induction args with
  | nil => intro m; simp [add_sequences_nil]
  | cons a rest ih =>
    intro m
    rw [add_sequences_cons, ih]
    simp [add_sequence, List.enumFrom_cons]

/-- C14 (as stated, refuted): two `add_sequence` calls with the explicit id 0, then one
without an id and one with the explicit id 2, leave the ids 0, 0, 2, 2 in the database. -/
theorem sequence_ids_repeat :
    (((AdvancedSubsequenceMiner.new 2 10).add_sequences
      [(["a"], 0), (["b"], 0), (["c"], -1), (["d"], 2)]).sequence_database.map
        (fun sd => sd.id)) = [0, 0, 2, 2] ∧
    ¬ (((AdvancedSubsequenceMiner.new 2 10).add_sequences
      [(["a"], 0), (["b"], 0), (["c"], -1), (["d"], 2)]).sequence_database.map
        (fun sd => sd.id)).Nodup := by
  decide

/-- C14 (amended): after any list of `add_sequence` calls on a fresh engine the entry at
position `i` of the database holds the sequence of call `i` with the id that call passed,
or with `i` when it passed no id (the default -1); so the ids are pairwise distinct when
no call passes an explicit id. -/
theorem sequence_ids_spec (min_len max_len : Int) (args : List (List String × Int)) :
    ((AdvancedSubsequenceMiner.new min_len max_len).add_sequences args).sequence_database =
      args.enum.map (fun x =>
        ⟨if x.2.2 = -1 then (x.1 : Int) else x.2.2, x.2.1, (x.2.1.length : Int)⟩) ∧
    ((∀ a ∈ args, a.2 = -1) →
      (((AdvancedSubsequenceMiner.new min_len max_len).add_sequences
        args).sequence_database.map (fun sd => sd.id)) =
          (List.range args.length).map (fun (i : Nat) => (i : Int)) ∧
      (((AdvancedSubsequenceMiner.new min_len max_len).add_sequences
        args).sequence_database.map (fun sd => sd.id)).Nodup) := by
  have hdb := add_sequences_database args (AdvancedSubsequenceMiner.new min_len max_len)
  simp only [AdvancedSubsequenceMiner.new, List.nil_append, List.length_nil] at hdb
  refine ⟨hdb, ?_⟩
  intro hall
  have hids : (((AdvancedSubsequenceMiner.new min_len max_len).add_sequences
      args).sequence_database.map (fun sd => sd.id)) =
        (List.range args.length).map (fun (i : Nat) => (i : Int)) := by
    simp only [AdvancedSubsequenceMiner.new]
    rw [hdb, List.map_map, ← List.enum_map_fst args, List.map_map]
    apply List.map_congr_left
    intro x hx
    have hx2 : x.2 ∈ args := List.snd_mem_of_mem_enumFrom hx
    simp [hall x.2 hx2]
  refine ⟨hids, ?_⟩
  rw [hids]
  apply List.Nodup.map _ (List.nodup_range _)
  intro i j hij
  simpa using hij

/-- The `Bool` returned by `insert_path` says that the node of the pattern did not carry
the end-of-pattern flag before. -/
theorem insert_path_snd (pat : List String) :
    ∀ (n : TrieNode) (sid pos : Int) (flag : Bool),
      (n.insert_path pat sid pos flag).2 = !(info_at n pat).1 := by
  induction pat with
  | nil =>
    intro n sid pos flag
    cases n
    simp [TrieNode.insert_path, info_at_nil, TrieNode.is_end_of_pattern]
  | cons ch rest ih =>
    intro n sid pos flag
    obtain ⟨cs, e, f, ps, c, nc⟩ := n
    simp only [TrieNode.insert_path, info_at_cons, TrieNode.children, ih,
      info_at_add_position]
    cases hfc : find_child cs ch with
    | none => simp [info_at_new_child]
    | some child => simp

theorem pattern_count_insert (t : SubsequenceTrie) (c : InsertCall) :
    (t.insert_pattern c.pattern c.sequence_id c.start_pos c.is_noncontiguous).pattern_count =
      if (info_at t.root c.pattern).1 = true then t.pattern_count else t.pattern_count + 1 := by
  simp only [SubsequenceTrie.insert_pattern, insert_path_snd]
  cases (info_at t.root c.pattern).1 <;> simp

/-- The distinct-pattern counter after a list of insertions into the empty trie. -/
theorem pattern_count_after_calls (calls : List InsertCall) :
    (apply_calls SubsequenceTrie.empty calls).pattern_count =
      (((calls.map (fun c => c.pattern)).toFinset.card : Nat) : Int) := by
  induction calls using List.reverseRecOn with
  | nil => simp [apply_calls_nil, SubsequenceTrie.empty]
  | append_singleton cs c ih =>
    rw [apply_calls_append, apply_calls_cons, apply_calls_nil, pattern_count_insert, ih,
      end_flag_apply_calls, info_at_empty]
    simp only [Bool.false_or, decide_eq_true_eq, List.map_append, List.map_cons, List.map_nil,
      List.toFinset_append, List.toFinset_cons, List.toFinset_nil]
    by_cases h : c.pattern ∈ cs.map (fun c => c.pattern)
    · have : (cs.map (fun c => c.pattern)).toFinset ∪ insert c.pattern ∅ =
          (cs.map (fun c => c.pattern)).toFinset := by
        ext q
        simp only [Finset.mem_union, List.mem_toFinset, Finset.mem_insert,
          Finset.not_mem_empty, or_false]
        constructor
        · rintro (hq | rfl)
          · exact hq
          · exact h
        · exact Or.inl
      rw [if_pos h, this]
    · have : (cs.map (fun c => c.pattern)).toFinset ∪ insert c.pattern ∅ =
          insert c.pattern (cs.map (fun c => c.pattern)).toFinset := by
        ext q
        simp only [Finset.mem_union, List.mem_toFinset, Finset.mem_insert,
          Finset.not_mem_empty, or_false]
        exact or_comm
      rw [if_neg h, this, Finset.card_insert_of_not_mem (by simpa using h)]
      push_cast
      ring

/-- The nodes carrying the end-of-pattern flag, by path, are the inserted patterns. -/
theorem end_nodes_after_calls (calls : List InsertCall) :
    (((nodes_below (apply_calls SubsequenceTrie.empty calls).root []).filter
      (fun y => y.2.is_end_of_pattern)).map Prod.fst).Nodup ∧
    ∀ q, q ∈ ((nodes_below (apply_calls SubsequenceTrie.empty calls).root []).filter
      (fun y => y.2.is_end_of_pattern)).map Prod.fst ↔ q ∈ calls.map (fun c => c.pattern) := by
  have hd := distinct_labels_after_calls calls
  constructor
  · exact ((List.filter_sublist _).map Prod.fst).nodup (nodup_paths_nodes_below _ [] hd)
  · intro q
    rw [List.mem_map]
    constructor
    · rintro ⟨⟨q1, x⟩, hmem, rfl⟩
      rw [List.mem_filter] at hmem
      obtain ⟨p, hp, hw⟩ := (mem_nodes_below _ [] q1 x hd).1 hmem.1
      simp only [List.nil_append] at hp
      subst hp
      exact (node_after_calls hw).2.1 hmem.2
    · intro hq
      obtain ⟨x, hw⟩ := walk_of_inserted hq
      refine ⟨(q, x), List.mem_filter.2
        ⟨(mem_nodes_below _ [] q x hd).2 ⟨q, by simp, hw⟩, (node_after_calls hw).2.2 hq⟩, rfl⟩

/-- C15: after any list of `insert_pattern` calls on a fresh trie, `get_pattern_count` is
the number of distinct patterns among the inserted ones, and so is the number of trie
nodes that carry the end-of-pattern flag. -/
theorem pattern_count_spec (calls : List InsertCall) :
    (apply_calls SubsequenceTrie.empty calls).get_pattern_count =
      (((calls.map (fun c => c.pattern)).dedup.length : Nat) : Int) ∧
    ((nodes_below (apply_calls SubsequenceTrie.empty calls).root []).filter
      (fun y => y.2.is_end_of_pattern)).length =
        (calls.map (fun c => c.pattern)).dedup.length := by
  constructor
  · rw [SubsequenceTrie.get_pattern_count, pattern_count_after_calls, List.card_toFinset]
  · obtain ⟨hnd, hmem⟩ := end_nodes_after_calls calls
    have hlen := List.toFinset_card_of_nodup hnd
    rw [List.length_map] at hlen
    rw [← List.card_toFinset, ← hlen]
    congr 1
    ext q
    rw [List.mem_toFinset, List.mem_toFinset]
    exact hmem q

theorem int_range_eq_nil {lo hi : Int} (h : hi < lo) : int_range lo hi = [] := by
  unfold int_range
  have : (hi + 1 - lo).toNat = 0 := by omega
  simp [this]

theorem contiguous_calls_eq_nil {min_length max_length : Int} (h : max_length < min_length)
    (S : List String) (seq_id : Int) :
    contiguous_calls min_length max_length S seq_id = [] := by
  unfold contiguous_calls
  simp only
  rw [int_range_eq_nil (lt_of_le_of_lt (min_le_left _ _) h)]
  rfl

theorem noncontiguous_calls_eq_nil {min_length max_length : Int}
    (h : max_length < min_length) (S : List String) (seq_id : Int) :
    noncontiguous_calls min_length max_length S seq_id = [] := by
  unfold noncontiguous_calls
  rw [List.filterMap_eq_nil_iff]
  intro i _
  simp only
  rw [if_neg]
  intro hc
  omega

theorem all_calls_eq_nil {m : AdvancedSubsequenceMiner} (h : m.max_length < m.min_length) :
    m.all_calls = [] := by
  unfold all_calls generate_calls
  rw [List.flatMap_eq_nil_iff]
  intro sd _
  rw [contiguous_calls_eq_nil h, noncontiguous_calls_eq_nil h]
  simp

theorem generate_subsequences_of_lt (m : AdvancedSubsequenceMiner)
    (h : m.max_length < m.min_length) (t : SubsequenceTrie) (S : List String) (seq_id : Int) :
    m.generate_subsequences t S seq_id = .ok t := by
  unfold generate_subsequences generate_noncontiguous_subsequences
  have hg : ¬ (m.min_length < 0 ∧ m.min_length ≤ min m.max_length (S.length : Int)) := by
    intro hc
    have := le_trans hc.2 (min_le_left _ _)
    omega
  simp only [hg, if_false, contiguous_calls_eq_nil h, noncontiguous_calls_eq_nil h,
    apply_calls_nil]
  split <;> rfl

theorem generate_all_of_lt (m : AdvancedSubsequenceMiner) (h : m.max_length < m.min_length) :
    m.generate_all = .ok m.trie := by
  unfold generate_all
  generalize m.trie = t
  induction m.sequence_database generalizing t with
  | nil => rfl
  | cons sd rest ih =>
    rw [List.foldlM_cons, generate_subsequences_of_lt m h]
    exact ih t

/-- C16 (as stated, refuted): the constructor accepts `(3, 2)` and `(0, 1)`; on the first
engine `mine_frequent_patterns` returns the empty list without an error, on the second it
returns records, one of them for the empty pattern. -/
theorem invalid_range_accepted :
    (∃ m1, ((AdvancedSubsequenceMiner.new 3 2).add_sequences
      [(["a", "b", "c"], -1)]).mine_frequent_patterns 1 false = .ok ([], m1)) ∧
    (∃ recs m1, ((AdvancedSubsequenceMiner.new 0 1).add_sequences
      [(["a"], -1)]).mine_frequent_patterns 1 false = .ok (recs, m1) ∧
      ∃ r ∈ recs, r.pattern = []) := by
  constructor
  · have h := mine_frequent_patterns_ok ((AdvancedSubsequenceMiner.new 3 2).add_sequences
      [(["a", "b", "c"], -1)]) (by decide) 1 false
    have hnil : (apply_calls ((AdvancedSubsequenceMiner.new 3 2).add_sequences
        [(["a", "b", "c"], -1)]).trie ((AdvancedSubsequenceMiner.new 3 2).add_sequences
        [(["a", "b", "c"], -1)]).all_calls).get_frequent_patterns 1 false = [] := by
      decide!
    rw [hnil] at h
    exact ⟨_, h⟩
  · exact ⟨_, _, mine_frequent_patterns_ok _ (by decide) 1 false, by decide!⟩

/-- C16 (amended): the constructor checks nothing and stores any pair of bounds as given;
when `max_length < min_length`, `mine_frequent_patterns` on the fresh engine with any
registered sequences returns the empty list, without an error. -/
theorem inverted_range_mines_nothing (min_len max_len : Int) (h : max_len < min_len)
    (args : List (List String × Int)) (min_support : Int) (nco : Bool) :
    (AdvancedSubsequenceMiner.new min_len max_len).min_length = min_len ∧
    (AdvancedSubsequenceMiner.new min_len max_len).max_length = max_len ∧
    ∃ m1, ((AdvancedSubsequenceMiner.new min_len max_len).add_sequences
      args).mine_frequent_patterns min_support nco = .ok ([], m1) := by
  refine ⟨rfl, rfl, ?_⟩
  obtain ⟨hmin, hmax, htrie, -, -⟩ :=
    add_sequences_fields args (AdvancedSubsequenceMiner.new min_len max_len)
  generalize (AdvancedSubsequenceMiner.new min_len max_len).add_sequences args = m at *
  have hlt : m.max_length < m.min_length := by
    rw [hmin, hmax]
    exact h
  have htrie2 : m.trie = SubsequenceTrie.empty := htrie
  unfold mine_frequent_patterns
  rw [generate_all_of_lt m hlt, htrie2]
  simp only [get_frequent_patterns_empty, List.map_nil]
  exact ⟨_, rfl⟩

/-- C16 (amended), for the bounds `(3, 2)` and one registered sequence. -/
theorem inverted_range_mines_nothing_witness :
    (2 : Int) < 3 ∧
    (AdvancedSubsequenceMiner.new 3 2).min_length = 3 ∧
    (AdvancedSubsequenceMiner.new 3 2).max_length = 2 ∧
    ∃ m1, ((AdvancedSubsequenceMiner.new 3 2).add_sequences
      [(["a", "b", "c"], -1)]).mine_frequent_patterns 1 false = .ok ([], m1) :=
  ⟨by decide, inverted_range_mines_nothing 3 2 (by decide) [(["a", "b", "c"], -1)] 1 false⟩

/-- C17: on a fresh engine with no registered sequence, for every configuration,
`min_support` and filter, `mine_frequent_patterns` returns the empty list: the trie query
gives no tuple, so the conversion loop with its division never runs (and with an empty
database the support would be the constant 0 anyway); afterwards the statistics hold
`total_sequences = 0` and `total_patterns_found = 0`. -/
theorem empty_database_mines_nothing (min_len max_len min_support : Int) (nco : Bool) :
    ∃ m1, (AdvancedSubsequenceMiner.new min_len max_len).mine_frequent_patterns min_support
        nco = .ok ([], m1) ∧
      m1.trie.get_frequent_patterns min_support nco = [] ∧
      (∀ t, ((AdvancedSubsequenceMiner.new min_len max_len).to_pattern_info t).support = 0) ∧
      m1.statistics.total_sequences = 0 ∧
      m1.statistics.total_patterns_found = 0 ∧
      m1.get_mining_statistics.1.total_sequences = 0 ∧
      m1.get_mining_statistics.1.total_patterns_found = 0 := by
  refine ⟨⟨min_len, max_len, SubsequenceTrie.empty, [], ⟨0, 0, 0⟩⟩, ?_, ?_, ?_, ?_, ?_, ?_, ?_⟩
  · unfold mine_frequent_patterns generate_all
    simp only [AdvancedSubsequenceMiner.new, List.foldlM_nil, pure, Except.pure,
      get_frequent_patterns_empty, List.map_nil]
    rfl
  · exact get_frequent_patterns_empty _ _
  · intro t
    simp [to_pattern_info, AdvancedSubsequenceMiner.new]
  · rfl
  · rfl
  · rfl
  · rfl

/-! ## Decimal numerals -/

theorem digitChar_ne_minus (k : Nat) (h : k < 10) : Nat.digitChar k ≠ '-' := by
  interval_cases k <;> decide

theorem digitChar_toNat (k : Nat) (h : k < 10) : (Nat.digitChar k).toNat - 48 = k := by
  interval_cases k <;> rfl

theorem toDigitsCore_no_minus (fuel : Nat) :
    ∀ (n : Nat) (ds : List Char), (∀ c ∈ ds, c ≠ '-') →
      ∀ c ∈ Nat.toDigitsCore 10 fuel n ds, c ≠ '-' := by
  induction fuel with
  | zero => intro n ds h; simpa [Nat.toDigitsCore] using h
  | succ fuel ih =>
    intro n ds h
    have hcons : ∀ c ∈ Nat.digitChar (n % 10) :: ds, c ≠ '-' := by
      intro c hc
      rcases List.mem_cons.1 hc with rfl | hc
      · exact digitChar_ne_minus _ (Nat.mod_lt n (by decide))
      · exact h c hc
    simp only [Nat.toDigitsCore]
    split
    · exact hcons
    · exact ih _ _ hcons

theorem toDigitsCore_value (fuel : Nat) :
    ∀ (n : Nat) (ds : List Char), n < fuel →
      (Nat.toDigitsCore 10 fuel n ds).foldl (fun a c => a * 10 + (c.toNat - 48)) 0 =
        ds.foldl (fun a c => a * 10 + (c.toNat - 48)) n := by
  induction fuel with
  | zero => intro n ds h; omega
  | succ fuel ih =>
    intro n ds h
    simp only [Nat.toDigitsCore]
    split
    · rename_i h0
      have hn : n % 10 = n := by omega
      have hd := digitChar_toNat (n % 10) (Nat.mod_lt n (by decide))
      rw [List.foldl_cons, Nat.zero_mul, Nat.zero_add, hd, hn]
    · rename_i h0
      have hd := digitChar_toNat (n % 10) (Nat.mod_lt n (by decide))
      rw [ih (n / 10) _ (by omega), List.foldl_cons, hd]
      congr 1
      omega

theorem nat_repr_injective {a b : Nat} (h : Nat.repr a = Nat.repr b) : a = b := by
  have hd : Nat.toDigits 10 a = Nat.toDigits 10 b := by
    have := congrArg String.data h
    simpa [Nat.repr, List.asString] using this
  have ha := toDigitsCore_value (a + 1) a [] (Nat.lt_succ_self a)
  have hb := toDigitsCore_value (b + 1) b [] (Nat.lt_succ_self b)
  simp only [List.foldl_nil] at ha hb
  unfold Nat.toDigits at hd
  rw [← ha, ← hb, hd]

theorem nat_repr_no_minus (n : Nat) : '-' ∉ (Nat.repr n).data := by
  intro h
  have : '-' ∈ Nat.toDigits 10 n := by simpa [Nat.repr, List.asString] using h
  exact toDigitsCore_no_minus _ _ [] (by simp) _ this rfl

/-- Decimal numerals of different integers differ. -/
theorem to_string_injective {a b : Int} (h : to_string a = to_string b) : a = b := by
  unfold to_string at h
  cases a with
  | ofNat m =>
    cases b with
    | ofNat n =>
      have : Nat.repr m = Nat.repr n := h
      rw [nat_repr_injective this]
    | negSucc n =>
      exfalso
      have h2 : Nat.repr m = "-" ++ Nat.repr (n + 1) := h
      apply nat_repr_no_minus m
      rw [h2, String.data_append]
      exact List.mem_append_left _ (by decide)
  | negSucc m =>
    cases b with
    | ofNat n =>
      exfalso
      have h2 : "-" ++ Nat.repr (m + 1) = Nat.repr n := h
      apply nat_repr_no_minus n
      rw [← h2, String.data_append]
      exact List.mem_append_left _ (by decide)
    | negSucc n =>
      have h2 : "-" ++ Nat.repr (m + 1) = "-" ++ Nat.repr (n + 1) := h
      have h3 := congrArg String.data h2
      rw [String.data_append, String.data_append] at h3
      have h4 : Nat.repr (m + 1) = Nat.repr (n + 1) :=
        String.ext (List.append_cancel_left h3)
      have := nat_repr_injective h4
      have hmn : m = n := by omega
      rw [hmn]

theorem length_key_injective {a b : Int}
    (h : "length_" ++ to_string a = "length_" ++ to_string b) : a = b := by
  have h3 := congrArg String.data h
  rw [String.data_append, String.data_append] at h3
  exact to_string_injective (String.ext (List.append_cancel_left h3))

theorem length_key_ne_total (s : String) : "length_" ++ s ≠ "total_unique_patterns" := by
  intro h
  have h3 := congrArg String.data h
  rw [String.data_append] at h3
  have h4 : ("length_" : String).data = ['l', 'e', 'n', 'g', 't', 'h', '_'] := rfl
  have h5 : ("total_unique_patterns" : String).data =
      't' :: ("otal_unique_patterns" : String).data := rfl
  rw [h4, h5] at h3
  simp at h3

/-! ## Maps from strings to counters -/

theorem map_get_set (m : List (String × Int)) (k key : String) (v : Int) :
    map_get (map_set m k v) key = if k = key then some v else map_get m key := by
  induction m with
  | nil => simp [map_set, map_get]
  | cons x rest ih =>
    obtain ⟨k1, v1⟩ := x
    by_cases hk : k1 = k
    · subst hk
      by_cases hc : k1 = key <;> simp [map_set, map_get, hc]
    · by_cases hc : k1 = key
      · subst hc
        have : ¬ k = k1 := fun h => hk h.symm
        simp [map_set, map_get, hk, this]
      · simp [map_set, map_get, hk, hc, ih]

theorem map_get_increment (m : List (String × Int)) (k key : String) :
    map_get (map_increment m k) key =
      if k = key then some ((map_get m key).getD 0 + 1) else map_get m key := by
  induction m with
  | nil => by_cases hc : k = key <;> simp [map_increment, map_get, hc]
  | cons x rest ih =>
    obtain ⟨k1, v1⟩ := x
    by_cases hk : k1 = k
    · subst hk
      by_cases hc : k1 = key <;> simp [map_increment, map_get, hc]
    · by_cases hc : k1 = key
      · subst hc
        have : ¬ k = k1 := fun h => hk h.symm
        simp [map_increment, map_get, hk, this]
      · simp [map_increment, map_get, hk, hc, ih]

theorem map_get_eq_none_iff (m : List (String × Int)) (key : String) :
    map_get m key = none ↔ key ∉ m.map Prod.fst := by
  induction m with
  | nil => simp [map_get]
  | cons x rest ih =>
    obtain ⟨k1, v1⟩ := x
    by_cases hc : k1 = key
    · simp [map_get, hc]
    · have : ¬ key = k1 := fun h => hc h.symm
      simp [map_get, hc, ih, this]

theorem map_increment_keys (m : List (String × Int)) (k : String) :
    (map_increment m k).map Prod.fst =
      if k ∈ m.map Prod.fst then m.map Prod.fst else m.map Prod.fst ++ [k] := by
  induction m with
  | nil => simp [map_increment]
  | cons x rest ih =>
    obtain ⟨k1, v1⟩ := x
    by_cases hk : k1 = k
    · simp [map_increment, hk]
    · have : ¬ k = k1 := fun h => hk h.symm
      simp only [map_increment, hk, if_false, List.map_cons, ih, List.mem_cons, this, false_or]
      split <;> simp

theorem map_increment_sum (m : List (String × Int)) (k : String) :
    ((map_increment m k).map Prod.snd).sum = (m.map Prod.snd).sum + 1 := by
  induction m with
  | nil => simp [map_increment]
  | cons x rest ih =>
    obtain ⟨k1, v1⟩ := x
    by_cases hk : k1 = k
    · simp [map_increment, hk]
      ring
    · simp [map_increment, hk, ih]
      ring

theorem map_set_of_not_mem (m : List (String × Int)) (k : String) (v : Int)
    (h : k ∉ m.map Prod.fst) : map_set m k v = m ++ [(k, v)] := by
  induction m with
  | nil => rfl
  | cons x rest ih =>
    obtain ⟨k1, v1⟩ := x
    simp only [List.map_cons, List.mem_cons, not_or] at h
    have hk : ¬ k1 = k := fun e => h.1 e.symm
    simp [map_set, hk, ih h.2]

theorem foldl_map_set_append (L : List (String × Int)) :
    ∀ init : List (String × Int), (L.map Prod.fst).Nodup →
      (∀ k ∈ L.map Prod.fst, k ∉ init.map Prod.fst) →
      L.foldl (fun acc dist_pair => map_set acc dist_pair.1 dist_pair.2) init = init ++ L := by
  induction L with
  | nil => intro init _ _; simp
  | cons x rest ih =>
    intro init hnd hdis
    simp only [List.map_cons, List.nodup_cons] at hnd
    rw [List.foldl_cons, map_set_of_not_mem _ _ _ (hdis x.1 (by simp)), ih _ hnd.2]
    · simp
    · intro k hk
      simp only [List.map_append, List.map_cons, List.map_nil, List.mem_append,
        List.mem_singleton, not_or]
      refine ⟨hdis k (by simp [hk]), ?_⟩
      rintro rfl
      exact hnd.1 hk

/-! ## The length distribution -/

/-- The first loop of `analyze_pattern_distribution`, continued from the map `acc`. -/
theorem length_distribution_from (recs : List PatternInfo) :
    ∀ acc : List (String × Int), (acc.map Prod.fst).Nodup →
      ((recs.foldl (fun acc pattern =>
        map_increment acc ("length_" ++ to_string pattern.length)) acc).map Prod.fst).Nodup ∧
      (∀ k ∈ (recs.foldl (fun acc pattern =>
          map_increment acc ("length_" ++ to_string pattern.length)) acc).map Prod.fst,
        k ∈ acc.map Prod.fst ∨ ∃ r ∈ recs, k = "length_" ++ to_string r.length) ∧
      (∀ l : Int, map_get (recs.foldl (fun acc pattern =>
          map_increment acc ("length_" ++ to_string pattern.length)) acc)
            ("length_" ++ to_string l) =
        if (recs.filter (fun r => r.length = l)).length = 0 then
          map_get acc ("length_" ++ to_string l)
        else some ((map_get acc ("length_" ++ to_string l)).getD 0 +
          ((recs.filter (fun r => r.length = l)).length : Int))) ∧
      ((recs.foldl (fun acc pattern =>
          map_increment acc ("length_" ++ to_string pattern.length)) acc).map Prod.snd).sum =
        (acc.map Prod.snd).sum + (recs.length : Int) := by
  induction recs with
  | nil =>
    intro acc hnd
    refine ⟨hnd, fun k hk => Or.inl hk, fun l => by simp, by simp⟩
  | cons r rest ih =>
    intro acc hnd
    have hnd2 : ((map_increment acc ("length_" ++ to_string r.length)).map Prod.fst).Nodup := by
      rw [map_increment_keys]
      split
      · exact hnd
      · rename_i hmem
        rw [List.nodup_append]
        refine ⟨hnd, List.nodup_singleton _, ?_⟩
        intro a ha hb
        simp only [List.mem_singleton] at hb
        subst hb
        exact hmem ha
    obtain ⟨h1, h2, h3, h4⟩ := ih _ hnd2
    rw [List.foldl_cons]
    refine ⟨h1, ?_, ?_, ?_⟩
    · intro k hk
      rcases h2 k hk with hk2 | ⟨r2, hr2, rfl⟩
      · rw [map_increment_keys] at hk2
        split at hk2
        · exact Or.inl hk2
        · rcases List.mem_append.1 hk2 with hk3 | hk3
          · exact Or.inl hk3
          · simp only [List.mem_singleton] at hk3
            exact Or.inr ⟨r, List.mem_cons_self _ _, hk3⟩
      · exact Or.inr ⟨r2, List.mem_cons_of_mem _ hr2, rfl⟩
    · intro l
      rw [h3 l, map_get_increment]
      by_cases hl : r.length = l
      · subst hl
        simp only [List.filter_cons, decide_True, if_true, List.length_cons]
        by_cases h0 : (rest.filter (fun r2 => decide (r2.length = r.length))).length = 0
        · simp [h0]
        · simp only [h0, if_false, Option.getD_some, Nat.succ_ne_zero, Option.some.injEq]
          push_cast
          ring
      · have hkey : ¬ "length_" ++ to_string r.length = "length_" ++ to_string l :=
          fun e => hl (length_key_injective e)
        simp only [hkey, if_false, List.filter_cons, hl, decide_False, Bool.false_eq_true]
    · rw [h4, map_increment_sum]
      simp only [List.length_cons]
      push_cast
      ring

/-- C18: `analyze_pattern_distribution` returns whenever `min_length` is not negative, and
whenever `mine_frequent_patterns(1)` returns records from the same state, the returned map
holds their number under `total_unique_patterns`; for every length `l` it holds under
`length_l` the number of records of length `l`, the key being absent when there is none;
and the values under the keys starting with `length_` add up to the number of records. -/
theorem analyze_pattern_distribution_spec (m : AdvancedSubsequenceMiner) :
    (0 ≤ m.min_length → ∃ out, m.analyze_pattern_distribution = .ok out) ∧
    ∀ recs m1, m.mine_frequent_patterns 1 false = .ok (recs, m1) →
      ∃ result, m.analyze_pattern_distribution = .ok (result, m1) ∧
        map_get result "total_unique_patterns" = some (recs.length : Int) ∧
        (∀ l : Int, map_get result ("length_" ++ to_string l) =
          if (recs.filter (fun r => r.length = l)).length = 0 then none
          else some ((recs.filter (fun r => r.length = l)).length : Int)) ∧
        ((result.filter (fun e => ("length_" : String).data.isPrefixOf e.1.data)).map
          Prod.snd).sum = (recs.length : Int) := by
  constructor
  · intro hm
    unfold analyze_pattern_distribution
    rw [mine_frequent_patterns_ok m hm 1 false]
    exact ⟨_, rfl⟩
  intro recs m1 hmine
  obtain ⟨hnd, hkeys, hget, hsum⟩ := length_distribution_from recs [] (by simp)
  rw [show recs.foldl (fun acc pattern =>
    map_increment acc ("length_" ++ to_string pattern.length)) [] =
      length_distribution recs from rfl] at hnd hkeys hget hsum
  have hdis : ∀ k ∈ (length_distribution recs).map Prod.fst,
      k ∉ (map_set [] "total_unique_patterns" (recs.length : Int)).map Prod.fst := by
    intro k hk
    rcases hkeys k hk with h | ⟨r, -, rfl⟩
    · simp at h
    · simp only [map_set, List.map_cons, List.map_nil, List.mem_singleton]
      exact length_key_ne_total _
  have hres : (length_distribution recs).foldl (fun acc dist_pair =>
      map_set acc dist_pair.1 dist_pair.2)
        (map_set [] "total_unique_patterns" (recs.length : Int)) =
      ("total_unique_patterns", (recs.length : Int)) :: length_distribution recs :=
    foldl_map_set_append (length_distribution recs)
      (map_set [] "total_unique_patterns" (recs.length : Int)) hnd hdis
  refine ⟨(length_distribution recs).foldl (fun acc dist_pair =>
    map_set acc dist_pair.1 dist_pair.2)
      (map_set [] "total_unique_patterns" (recs.length : Int)), ?_, ?_, ?_, ?_⟩
  · unfold analyze_pattern_distribution
    rw [hmine]
  · rw [hres]
    simp only [map_get, if_true]
  · intro l
    have hne : ¬ "total_unique_patterns" = "length_" ++ to_string l :=
      fun e => length_key_ne_total _ e.symm
    rw [hres]
    simp only [map_get, hne, if_false]
    have := hget l
    simp only [map_get, Option.getD_none, zero_add] at this
    exact this
  · rw [hres]
    have hfalse : ("length_" : String).data.isPrefixOf
        ("total_unique_patterns" : String).data = false := by decide
    have hall : (length_distribution recs).filter
        (fun e => ("length_" : String).data.isPrefixOf e.1.data) = length_distribution recs := by
      rw [List.filter_eq_self]
      intro e he
      rcases hkeys e.1 (List.mem_map_of_mem Prod.fst he) with h | ⟨r, -, hr⟩
      · simp at h
      · rw [hr, String.data_append]
        exact List.isPrefixOf_iff_prefix.2 (List.prefix_append _ _)
    rw [List.filter_cons, hfalse]
    simp only [Bool.false_eq_true, if_false]
    rw [hall]
    simpa using hsum

/-- C18, at the scenario engine: the call returns a map holding 5 under both
`total_unique_patterns` and `length_2`. -/
theorem analyze_pattern_distribution_spec_witness :
    ∃ result m1, scenario_engine.analyze_pattern_distribution = .ok (result, m1) ∧
      map_get result "total_unique_patterns" = some 5 ∧
      map_get result "length_2" = some 5 ∧ map_get result "length_3" = none := by
  obtain ⟨-, hall⟩ := analyze_pattern_distribution_spec scenario_engine
  obtain ⟨result, h1, -, -, -⟩ :=
    hall _ _ (mine_frequent_patterns_ok scenario_engine (by decide) 1 false)
  refine ⟨result, _, h1, ?_⟩
  unfold analyze_pattern_distribution at h1
  rw [mine_frequent_patterns_ok scenario_engine (by decide) 1 false] at h1
  simp only [Except.ok.injEq, Prod.mk.injEq] at h1
  rw [← h1.1]
  decide!

/-! ## Counting the calls of the two passes -/

theorem insert_count_flatMap {α : Type} (l : List α) (f : α → List InsertCall)
    (p : List String) :
    insert_count (l.flatMap f) p = (l.map (fun x => insert_count (f x) p)).sum := by
  induction l with
  | nil => rfl
  | cons a rest ih => simp [List.flatMap_cons, insert_count_append, ih]

theorem and_shift_ne_zero_iff (i j : Nat) : (i &&& (1 <<< j) ≠ 0) ↔ i.testBit j = true := by
  rw [Nat.one_shiftLeft, Nat.and_two_pow]
  cases i.testBit j <;> simp

/-- The subsequence built by the inner loop of lines 224-229 is the selection of the
mask. -/
theorem code_select_eq (S : List String) (i : Nat) :
    ((List.range S.length).filter (fun j => i &&& (1 <<< j) ≠ 0)).map
      (fun j => S.getD j "") = mask_select S i := by
  unfold mask_select
  congr 1
  apply List.filter_congr
  intro j _
  by_cases h : i.testBit j = true
  · simp [h, (and_shift_ne_zero_iff i j).2 h]
  · have h2 : ¬ (i &&& (1 <<< j) ≠ 0) := fun hc => h ((and_shift_ne_zero_iff i j).1 hc)
    simp only [ne_eq, Decidable.not_not] at h2
    simp [h, h2]

theorem mem_noncontiguous_calls {min_length max_length : Int} {S : List String}
    {seq_id : Int} {c : InsertCall} :
    c ∈ noncontiguous_calls min_length max_length S seq_id ↔
      ∃ i, 1 ≤ i ∧ i < min 1000 (1 <<< S.length) ∧
        min_length ≤ ((mask_select S i).length : Int) ∧
        ((mask_select S i).length : Int) ≤ max_length ∧
        c = ⟨mask_select S i, seq_id,
          ((((List.range S.length).filter (fun j => i &&& (1 <<< j) ≠ 0)).headD 0 : Nat) : Int),
          true⟩ := by
  unfold noncontiguous_calls
  simp only [List.mem_filterMap, List.mem_range'_1, code_select_eq]
  constructor
  · rintro ⟨i, ⟨h1, h2⟩, hi⟩
    split at hi
    · rename_i hb
      cases hi
      exact ⟨i, h1, by omega, hb.1, hb.2, rfl⟩
    · cases hi
  · rintro ⟨i, h1, h2, hb1, hb2, rfl⟩
    refine ⟨i, ⟨h1, by omega⟩, ?_⟩
    rw [if_pos ⟨hb1, hb2⟩]

theorem length_filter_filterMap (f : Nat → Option InsertCall) (q : Nat → Prop)
    [DecidablePred q] (p : List String)
    (h : ∀ i, q i ↔ ∃ c, f i = some c ∧ c.pattern = p) (l : List Nat) :
    ((l.filterMap f).filter (fun c => decide (c.pattern = p))).length =
      (l.filter (fun i => decide (q i))).length := by
  induction l with
  | nil => rfl
  | cons i rest ih =>
    rw [List.filterMap_cons]
    cases hf : f i with
    | none =>
      have hq : ¬ q i := by
        intro hq
        obtain ⟨c, hc, -⟩ := (h i).1 hq
        rw [hf] at hc
        cases hc
      simp only [List.filter_cons, hq, decide_False, Bool.false_eq_true, if_false, ih]
    | some c =>
      by_cases hc : c.pattern = p
      · have hq : q i := (h i).2 ⟨c, hf, hc⟩
        simp only [List.filter_cons, hq, hc, decide_True, if_true, List.length_cons, ih]
      · have hq : ¬ q i := by
          intro hq
          obtain ⟨c2, hc2, hcp⟩ := (h i).1 hq
          rw [hf] at hc2
          cases hc2
          exact hc hcp
        simp only [List.filter_cons, hq, hc, decide_False, Bool.false_eq_true, if_false, ih]

/-- Calls of the bitmask pass that insert `p`, for a `p` of admissible length: one for
every mask in range that selects `p`. -/
theorem insert_count_noncontiguous (min_length max_length : Int) (S : List String)
    (seq_id : Int) (p : List String) (hp1 : min_length ≤ (p.length : Int))
    (hp2 : (p.length : Int) ≤ max_length) :
    insert_count (noncontiguous_calls min_length max_length S seq_id) p = mask_count S p := by
  have key : ∀ i, mask_select S i = p ↔ ∃ c,
      (fun i =>
        let positions := (List.range S.length).filter (fun j => i &&& (1 <<< j) ≠ 0)
        let subsequence := positions.map (fun j => S.getD j "")
        if min_length ≤ (subsequence.length : Int) ∧ (subsequence.length : Int) ≤ max_length
        then some (⟨subsequence, seq_id, ((positions.headD 0 : Nat) : Int), true⟩ : InsertCall)
        else none) i = some c ∧ c.pattern = p := by
    intro i
    simp only [code_select_eq]
    constructor
    · intro hsel
      have hb : min_length ≤ ((mask_select S i).length : Int) ∧
          ((mask_select S i).length : Int) ≤ max_length := by
        rw [hsel]
        exact ⟨hp1, hp2⟩
      rw [if_pos hb]
      exact ⟨_, rfl, hsel⟩
    · rintro ⟨c, hc, hcp⟩
      split at hc
      · cases hc
        exact hcp
      · cases hc
  unfold insert_count noncontiguous_calls mask_count
  rw [length_filter_filterMap _ (fun i => mask_select S i = p) p key]
  have hpos : 1 ≤ min 1000 (2 ^ S.length) := by
    have := Nat.two_pow_pos S.length
    omega
  rw [Nat.one_shiftLeft, List.range_eq_range']
  obtain ⟨N, hN⟩ : ∃ N, min 1000 (2 ^ S.length) = N + 1 := ⟨_, (Nat.sub_add_cancel hpos).symm⟩
  rw [hN, List.range'_succ, List.filter_cons]
  simp only [Nat.add_sub_cancel, Nat.zero_add]
  have h0 : ¬ ((1 : Nat) ≤ 0 ∧ mask_select S 0 = p) := by omega
  simp only [h0, decide_False, Bool.false_eq_true, if_false]
  congr 1
  apply List.filter_congr
  intro i hi
  rw [List.mem_range'_1] at hi
  have : 1 ≤ i := hi.1
  simp [this]

/-- Calls of the contiguous pass that insert `p`, for a non-empty `p` of admissible length:
one for every window of the sequence that equals `p`. -/
theorem insert_count_contiguous (min_length max_length : Int) (S : List String)
    (seq_id : Int) (p : List String) (h0 : 0 ≤ min_length) (hp0 : 1 ≤ p.length)
    (hp1 : min_length ≤ (p.length : Int)) (hp2 : (p.length : Int) ≤ max_length) :
    insert_count (contiguous_calls min_length max_length S seq_id) p = window_count S p := by
  obtain ⟨hfilter, hall⟩ := contiguous_calls_of_nonneg min_length max_length S seq_id h0
  unfold insert_count window_count
  have hsplit : (contiguous_calls min_length max_length S seq_id).filter
      (fun c => decide (c.pattern = p)) =
      ((contiguous_calls min_length max_length S seq_id).filter
        (fun c => decide (c.pattern.length = p.length))).filter
          (fun c => decide (c.pattern = p)) := by
    rw [List.filter_filter]
    apply List.filter_congr
    intro c _
    by_cases hc : c.pattern = p
    · simp [hc]
    · simp [hc]
  rw [hsplit]
  by_cases hlen : p.length ≤ S.length
  · rw [hfilter p.length hp0 hp1 (le_min hp2 (by exact_mod_cast hlen)), List.filter_map,
      List.length_map]
    have e : S.length - p.length + 1 = S.length + 1 - p.length := by omega
    rw [e]
    rfl
  · have hnone : (contiguous_calls min_length max_length S seq_id).filter
        (fun c => decide (c.pattern.length = p.length)) = [] := by
      rw [List.filter_eq_nil_iff]
      intro c hc
      have := (hall c hc).2.1
      have h2 := le_trans this (min_le_right _ _)
      simp only [decide_eq_true_eq]
      intro hcl
      rw [hcl] at h2
      have : p.length ≤ S.length := by exact_mod_cast h2
      exact hlen this
    have e : S.length + 1 - p.length = 0 := by omega
    rw [hnone, e]
    rfl

namespace AdvancedSubsequenceMiner

/-- Calls of `generate_subsequences` for one sequence that insert `p`. -/
theorem insert_count_generate_calls (m : AdvancedSubsequenceMiner) (h0 : 0 ≤ m.min_length)
    (S : List String) (seq_id : Int) (p : List String) (hp0 : 1 ≤ p.length)
    (hp1 : m.min_length ≤ (p.length : Int)) (hp2 : (p.length : Int) ≤ m.max_length) :
    insert_count (m.generate_calls S seq_id) p =
      window_count S p + (if S.length ≤ 20 then mask_count S p else 0) := by
  unfold generate_calls
  rw [insert_count_append, insert_count_contiguous _ _ _ _ _ h0 hp0 hp1 hp2]
  congr 1
  by_cases h20 : S.length ≤ 20
  · have : (S.length : Int) ≤ 20 := by exact_mod_cast h20
    rw [if_pos h20, if_pos this, insert_count_noncontiguous _ _ _ _ _ hp1 hp2]
  · have : ¬ (S.length : Int) ≤ 20 := by
      intro hc
      exact h20 (by exact_mod_cast hc)
    rw [if_neg h20, if_neg this]
    rfl

/-- Calls of one mining run that insert `p`. -/
theorem insert_count_all_calls (m : AdvancedSubsequenceMiner) (h0 : 0 ≤ m.min_length)
    (p : List String) (hp0 : 1 ≤ p.length)
    (hp1 : m.min_length ≤ (p.length : Int)) (hp2 : (p.length : Int) ≤ m.max_length) :
    insert_count m.all_calls p =
      occurrence_count (m.sequence_database.map (fun sd => sd.sequence)) p := by
  unfold all_calls occurrence_count
  rw [insert_count_flatMap, List.map_map]
  congr 1
  apply List.map_congr_left
  intro sd _
  exact insert_count_generate_calls m h0 sd.sequence sd.id p hp0 hp1 hp2

end AdvancedSubsequenceMiner

/-- C19: on a fresh engine with `1 <= min_length` and any registered sequences, for every
pattern `p` with `min_length <= |p| <= max_length`, a single call `mine_frequent_patterns(1)`
reports `p` exactly when its occurrence count is at least 1, and then with that count as
frequency; the occurrence count is the sum over the registered sequences of the number of
windows equal to `p` plus, for a sequence of at most 20 elements, the number of bitmasks in
`[1, min(1000, 2^|S|))` that select `p`. -/
theorem frequency_is_occurrence_count (min_len max_len : Int) (h1 : 1 ≤ min_len)
    (args : List (List String × Int)) (p : List String)
    (hp1 : min_len ≤ (p.length : Int)) (hp2 : (p.length : Int) ≤ max_len) :
    ∃ recs m1,
      ((AdvancedSubsequenceMiner.new min_len max_len).add_sequences
        args).mine_frequent_patterns 1 false = .ok (recs, m1) ∧
      ((∃ r ∈ recs, r.pattern = p) ↔ 1 ≤ occurrence_count (args.map Prod.fst) p) ∧
      ∀ r ∈ recs, r.pattern = p →
        r.frequency = (occurrence_count (args.map Prod.fst) p : Int) := by
  obtain ⟨hmin, hmax, htrie, -, hdb⟩ :=
    add_sequences_fields args (AdvancedSubsequenceMiner.new min_len max_len)
  generalize (AdvancedSubsequenceMiner.new min_len max_len).add_sequences args = m at *
  have hm : 0 ≤ m.min_length := by
    rw [hmin]
    exact le_trans (by decide) h1
  have htrie2 : m.trie = SubsequenceTrie.empty := htrie
  have hdb2 : m.sequence_database.map (fun sd => sd.sequence) = args.map Prod.fst := by
    rw [hdb]
    simp [AdvancedSubsequenceMiner.new]
  have hp0 : 1 ≤ p.length := by
    have : (1 : Int) ≤ (p.length : Int) := le_trans h1 hp1
    exact_mod_cast this
  have hcount : insert_count m.all_calls p = occurrence_count (args.map Prod.fst) p := by
    rw [← hdb2]
    exact insert_count_all_calls m hm p hp0 (hmin ▸ hp1) (hmax ▸ hp2)
  have hmine := mine_frequent_patterns_ok m hm 1 false
  rw [htrie2] at hmine
  refine ⟨_, _, hmine, ?_, ?_⟩
  · rw [← hcount]
    constructor
    · rintro ⟨r, hr, rfl⟩
      obtain ⟨⟨q, f, nc⟩, hmem, rfl⟩ := List.mem_map.1 hr
      exact (insert_count_pos_iff _ _).2 (mem_get_frequent_patterns_built hmem).1
    · intro hpos
      obtain ⟨f, nc, hmem⟩ :=
        exists_get_frequent_patterns_built ((insert_count_pos_iff _ _).1 hpos)
      exact ⟨_, List.mem_map_of_mem _ hmem, rfl⟩
  · intro r hr hrp
    obtain ⟨⟨q, f, nc⟩, hmem, rfl⟩ := List.mem_map.1 hr
    simp only [to_pattern_info] at hrp ⊢
    subst hrp
    rw [(mem_get_frequent_patterns_built hmem).2, hcount]

/-- C19, at the scenario engine for the pattern `a,b`: three windows and three selecting
bitmasks, frequency 6. -/
theorem frequency_is_occurrence_count_witness :
    (1 : Int) ≤ 2 ∧ (2 : Int) ≤ ((["a", "b"] : List String).length : Int) ∧
    ((["a", "b"] : List String).length : Int) ≤ 2 ∧
    occurrence_count [["a", "b", "c"], ["a", "b", "d"], ["a", "b", "c"]] ["a", "b"] = 6 ∧
    ∃ recs m1, scenario_engine.mine_frequent_patterns 1 false = .ok (recs, m1) ∧
      ((∃ r ∈ recs, r.pattern = ["a", "b"]) ↔
        1 ≤ occurrence_count [["a", "b", "c"], ["a", "b", "d"], ["a", "b", "c"]] ["a", "b"]) ∧
      ∀ r ∈ recs, r.pattern = ["a", "b"] →
        r.frequency =
          (occurrence_count [["a", "b", "c"], ["a", "b", "d"], ["a", "b", "c"]] ["a", "b"] :
            Int) :=
  ⟨by decide, by decide, by decide, by decide!,
    frequency_is_occurrence_count 2 2 (by decide)
      [(["a", "b", "c"], -1), (["a", "b", "d"], -1), (["a", "b", "c"], -1)] ["a", "b"]
      (by decide) (by decide)⟩

/-! ## Windows among the bitmask selections -/

theorem map_getD_range' (S : List String) (l : Nat) :
    ∀ s, s + l ≤ S.length →
      (List.range' s l).map (fun j => S.getD j "") = (S.drop s).take l := by
  induction l with
  | zero => intro s _; simp
  | succ l ih =>
    intro s h
    have hs : s < S.length := by omega
    rw [List.range'_succ, List.map_cons, ih (s + 1) (by omega), List.drop_eq_getElem_cons hs,
      List.take_succ_cons, List.getD_eq_getElem S "" hs]

theorem filter_range_window (n s l : Nat) (h : s + l ≤ n) :
    (List.range n).filter (fun j => decide (s ≤ j) && decide (j - s < l)) =
      List.range' s l := by
  apply List.eq_of_perm_of_sorted (r := fun a b : Nat => a < b)
  · rw [List.perm_ext_iff_of_nodup ((List.nodup_range n).filter _) (List.nodup_range' s l)]
    intro j
    simp only [List.mem_filter, List.mem_range, Bool.and_eq_true, decide_eq_true_eq,
      List.mem_range'_1]
    omega
  · exact (List.pairwise_lt_range n).filter _
  · exact List.pairwise_lt_range' s l

/-- The mask with the bits `s, ..., s+l-1` selects the window of length `l` at `s`. -/
theorem mask_select_window (S : List String) (s l : Nat) (h : s + l ≤ S.length) :
    mask_select S ((2 ^ l - 1) <<< s) = (S.drop s).take l := by
  unfold mask_select
  have hf : (List.range S.length).filter (fun j => ((2 ^ l - 1) <<< s).testBit j) =
      (List.range S.length).filter (fun j => decide (s ≤ j) && decide (j - s < l)) := by
    apply List.filter_congr
    intro j _
    rw [Nat.testBit_shiftLeft, Nat.testBit_two_pow_sub_one]
  rw [hf, filter_range_window _ _ _ h, map_getD_range' S l s h]

theorem window_mask_bounds (s l n : Nat) (hl : 1 ≤ l) (h : s + l ≤ n) :
    1 ≤ (2 ^ l - 1) <<< s ∧ (2 ^ l - 1) <<< s < 2 ^ n := by
  rw [Nat.shiftLeft_eq]
  have h1 : 2 ≤ 2 ^ l := by
    calc 2 = 2 ^ 1 := rfl
      _ ≤ 2 ^ l := Nat.pow_le_pow_right (by decide) hl
  have h2 : 0 < 2 ^ s := Nat.two_pow_pos s
  have h3 : 2 ^ l * 2 ^ s ≤ 2 ^ n := by
    rw [← Nat.pow_add, Nat.add_comm]
    exact Nat.pow_le_pow_right (by decide) h
  constructor
  · exact Nat.mul_pos (by omega) h2
  · have : (2 ^ l - 1) * 2 ^ s < 2 ^ l * 2 ^ s :=
      Nat.mul_lt_mul_of_pos_right (by omega) h2
    omega

/-- For a sequence of at most 9 elements and `1 <= min_length`, every pattern inserted by
the contiguous pass is inserted by the bitmask pass too. -/
theorem contiguous_pattern_in_noncontiguous {min_length max_length : Int} {S : List String}
    {seq_id : Int} (h1 : 1 ≤ min_length) (h9 : S.length ≤ 9) {c : InsertCall}
    (hc : c ∈ contiguous_calls min_length max_length S seq_id) :
    ∃ c2 ∈ noncontiguous_calls min_length max_length S seq_id, c2.pattern = c.pattern := by
  unfold contiguous_calls at hc
  obtain ⟨x, hx, hy⟩ := List.mem_flatMap.1 hc
  obtain ⟨start, hs, rfl⟩ := List.mem_map.1 hy
  rw [mem_int_range] at hx hs
  have hx2 := le_trans hx.2 (min_le_right _ _)
  have hfit : start.toNat + x.toNat ≤ S.length := by omega
  have hl : 1 ≤ x.toNat := by omega
  obtain ⟨hb1, hb2⟩ := window_mask_bounds start.toNat x.toNat S.length hl hfit
  have hsel := mask_select_window S start.toNat x.toNat hfit
  have hlen := length_window S start x hs.1 (by omega) hs.2
  have hpow : 2 ^ S.length ≤ 2 ^ 9 := Nat.pow_le_pow_right (by decide) h9
  refine ⟨_, mem_noncontiguous_calls.2 ⟨(2 ^ x.toNat - 1) <<< start.toNat, hb1, ?_, ?_, ?_,
    rfl⟩, hsel⟩
  · rw [Nat.one_shiftLeft]
    have : 2 ^ 9 = 512 := by decide
    omega
  · rw [hsel, hlen]
    exact hx.1
  · rw [hsel, hlen]
    exact le_trans hx.2 (min_le_left _ _)

/-- For a sequence of at most 9 elements and `1 <= min_length`, the last call of
`generate_subsequences` that inserts a pattern passes the flag true. -/
theorem last_call_generate_calls {m : AdvancedSubsequenceMiner} (h1 : 1 ≤ m.min_length)
    {S : List String} (h9 : S.length ≤ 9) (seq_id : Int) {p : List String} {c : InsertCall}
    (h : last_call (m.generate_calls S seq_id) p = some c) : c.is_noncontiguous = true := by
  unfold AdvancedSubsequenceMiner.generate_calls at h
  have h20 : (S.length : Int) ≤ 20 := by omega
  rw [if_pos h20, last_call_append] at h
  cases hn : last_call (noncontiguous_calls m.min_length m.max_length S seq_id) p with
  | some c2 =>
    rw [hn] at h
    simp only [Option.or_some, Option.some.injEq] at h
    subst h
    exact noncontiguous_calls_flag (last_call_mem hn).1
  | none =>
    rw [hn] at h
    simp only [Option.none_or] at h
    obtain ⟨hc, hcp⟩ := last_call_mem h
    obtain ⟨c2, hc2, hc2p⟩ := contiguous_pattern_in_noncontiguous h1 h9 hc
    exfalso
    apply (last_call_eq_none_iff _ _).1 hn
    exact List.mem_map.2 ⟨c2, hc2, by rw [hc2p, hcp]⟩

theorem last_call_flatMap {α : Type} (l : List α) (f : α → List InsertCall) (p : List String)
    (h : ∀ x ∈ l, ∀ c, last_call (f x) p = some c → c.is_noncontiguous = true) :
    ∀ c, last_call (l.flatMap f) p = some c → c.is_noncontiguous = true := by
  induction l with
  | nil =>
    intro c hc
    simp [last_call] at hc
  | cons a rest ih =>
    intro c hc
    rw [List.flatMap_cons, last_call_append] at hc
    cases hr : last_call (rest.flatMap f) p with
    | some c2 =>
      rw [hr] at hc
      simp only [Option.or_some, Option.some.injEq] at hc
      subst hc
      exact ih (fun x hx => h x (List.mem_cons_of_mem _ hx)) _ hr
    | none =>
      rw [hr] at hc
      simp only [Option.none_or] at hc
      exact h a (List.mem_cons_self _ _) c hc

/-- C20: on a fresh engine with `1 <= min_length` whose registered sequences all have at most
9 elements, every record of a single `mine_frequent_patterns` call has
`is_noncontiguous = true`, and the call with `noncontiguous_only = true` returns the same
records (and leaves the same state) as the call with `noncontiguous_only = false`. -/
theorem short_sequences_all_noncontiguous (min_len max_len : Int) (h1 : 1 ≤ min_len)
    (args : List (List String × Int)) (hshort : ∀ a ∈ args, a.1.length ≤ 9)
    (min_support : Int) :
    ∃ recs m1,
      ((AdvancedSubsequenceMiner.new min_len max_len).add_sequences
        args).mine_frequent_patterns min_support false = .ok (recs, m1) ∧
      (∀ r ∈ recs, r.is_noncontiguous = true) ∧
      ((AdvancedSubsequenceMiner.new min_len max_len).add_sequences
        args).mine_frequent_patterns min_support true = .ok (recs, m1) := by
  obtain ⟨hmin, -, htrie, -, hdb⟩ :=
    add_sequences_fields args (AdvancedSubsequenceMiner.new min_len max_len)
  generalize (AdvancedSubsequenceMiner.new min_len max_len).add_sequences args = m at *
  have hm1 : 1 ≤ m.min_length := by rw [hmin]; exact h1
  have hm : 0 ≤ m.min_length := le_trans (by decide) hm1
  have htrie2 : m.trie = SubsequenceTrie.empty := htrie
  have hdb2 : m.sequence_database.map (fun sd => sd.sequence) = args.map Prod.fst := by
    rw [hdb]
    simp [AdvancedSubsequenceMiner.new]
  have hlast : ∀ p c, last_call m.all_calls p = some c → c.is_noncontiguous = true := by
    intro p
    unfold all_calls
    apply last_call_flatMap
    intro sd hsd c hc
    obtain ⟨a, ha, has⟩ := sequence_mem_args hdb2 hsd
    have h9 : sd.sequence.length ≤ 9 := by
      rw [← has]
      exact hshort a ha
    exact last_call_generate_calls hm1 h9 sd.id hc
  have hd := distinct_labels_after_calls m.all_calls
  have hnode : ∀ q x, (q, x) ∈ nodes_below (apply_calls SubsequenceTrie.empty m.all_calls).root
      [] → x.is_end_of_pattern = true → x.is_noncontiguous = true := by
    intro q x hmem he
    obtain ⟨p, hp, hw⟩ := (mem_nodes_below _ [] q x hd).1 hmem
    simp only [List.nil_append] at hp
    subst hp
    obtain ⟨c, hc⟩ := exists_last_call ((node_after_calls hw).2.1 he)
    have hflag := flag_apply_calls m.all_calls SubsequenceTrie.empty q
    rw [info_at_of_walk hw, hc] at hflag
    have hx : x.is_noncontiguous = c.is_noncontiguous := hflag
    rw [hx]
    exact hlast q c hc
  have hsame : (apply_calls SubsequenceTrie.empty m.all_calls).get_frequent_patterns
      min_support true =
      (apply_calls SubsequenceTrie.empty m.all_calls).get_frequent_patterns
        min_support false := by
    unfold SubsequenceTrie.get_frequent_patterns
    rw [dfs_eq_filterMap, dfs_eq_filterMap]
    congr 1
    apply List.filterMap_congr
    rintro ⟨q, x⟩ hmem
    unfold emit
    by_cases he : x.is_end_of_pattern = true
    · simp [hnode q x hmem he]
    · simp [he]
  have hfalse := mine_frequent_patterns_ok m hm min_support false
  have htrue := mine_frequent_patterns_ok m hm min_support true
  rw [htrie2] at hfalse htrue
  rw [hsame] at htrue
  refine ⟨_, _, hfalse, ?_, htrue⟩
  intro r hr
  obtain ⟨⟨q, f, nc⟩, hmem, rfl⟩ := List.mem_map.1 hr
  obtain ⟨c, hc, rfl⟩ := record_flag_built hmem
  exact hlast q c hc

/-- C20, at the scenario engine with `min_support = 2`. -/
theorem short_sequences_all_noncontiguous_witness :
    (1 : Int) ≤ 2 ∧
    (∀ a ∈ [((["a", "b", "c"] : List String), (-1 : Int)), (["a", "b", "d"], -1),
      (["a", "b", "c"], -1)], a.1.length ≤ 9) ∧
    ∃ recs m1, scenario_engine.mine_frequent_patterns 2 false = .ok (recs, m1) ∧
      (∀ r ∈ recs, r.is_noncontiguous = true) ∧
      scenario_engine.mine_frequent_patterns 2 true = .ok (recs, m1) :=
  ⟨by decide, by decide,
    short_sequences_all_noncontiguous 2 2 (by decide)
      [(["a", "b", "c"], -1), (["a", "b", "d"], -1), (["a", "b", "c"], -1)] (by decide) 2⟩

/-! ## Shape of the bitmask insertions -/

theorem testBit_index_lt {i j k : Nat} (hi : i < 2 ^ k) (hb : i.testBit j = true) : j < k := by
  by_contra hjk
  have hle : 2 ^ k ≤ 2 ^ j := Nat.pow_le_pow_right (by decide) (not_lt.1 hjk)
  have := Nat.testBit_lt_two_pow (lt_of_lt_of_le hi hle)
  rw [this] at hb
  cases hb

/-- The index list built by the inner loop of lines 224-229 for a mask in range: not
empty, increasing, below the length of the sequence and below 10. -/
theorem mask_positions (S : List String) (i : Nat) (h1 : 1 ≤ i)
    (h2 : i < min 1000 (1 <<< S.length)) :
    (List.range S.length).filter (fun j => i &&& (1 <<< j) ≠ 0) ≠ [] ∧
    ((List.range S.length).filter (fun j => i &&& (1 <<< j) ≠ 0)).Pairwise
      (fun a b => a < b) ∧
    ∀ j ∈ (List.range S.length).filter (fun j => i &&& (1 <<< j) ≠ 0),
      j < min S.length 10 := by
  rw [Nat.one_shiftLeft] at h2
  have hn : i < 2 ^ S.length := lt_of_lt_of_le h2 (min_le_right _ _)
  have h10 : i < 2 ^ 10 := by
    have : (2 : Nat) ^ 10 = 1024 := by decide
    have := lt_of_lt_of_le h2 (min_le_left _ _)
    omega
  refine ⟨?_, (List.pairwise_lt_range _).filter _, ?_⟩
  · obtain ⟨j, hj⟩ := Nat.ne_zero_implies_bit_true (show i ≠ 0 by omega)
    intro hnil
    have hmem : j ∈ (List.range S.length).filter (fun j => i &&& (1 <<< j) ≠ 0) := by
      rw [List.mem_filter, List.mem_range]
      exact ⟨testBit_index_lt hn hj, by simpa using (and_shift_ne_zero_iff i j).2 hj⟩
    rw [hnil] at hmem
    cases hmem
  · intro j hj
    rw [List.mem_filter, List.mem_range] at hj
    have hb : i.testBit j = true := (and_shift_ne_zero_iff i j).1 (by simpa using hj.2)
    exact lt_min hj.1 (testBit_index_lt h10 hb)

/-- C21: for a sequence `S` of at most 20 elements `1 << |S|` stays below `2^31`,
`generate_noncontiguous_subsequences` applies the calls of the bitmask pass, and each of
these calls inserts the elements of `S` at an increasing, non-empty index list whose
indices are all below `min(|S|, 10)`, with the first index as start offset, the id of the
sequence and the flag true. -/
theorem noncontiguous_calls_shape (m : AdvancedSubsequenceMiner) (trie : SubsequenceTrie)
    (S : List String) (seq_id : Int) (h : S.length ≤ 20) :
    1 <<< S.length < 2 ^ 31 ∧
    m.generate_noncontiguous_subsequences trie S seq_id =
      apply_calls trie (noncontiguous_calls m.min_length m.max_length S seq_id) ∧
    ∀ c ∈ noncontiguous_calls m.min_length m.max_length S seq_id,
      ∃ first rest, (first :: rest).Pairwise (fun a b => a < b) ∧
        (∀ j ∈ first :: rest, j < min S.length 10) ∧
        c.pattern = (first :: rest).map (fun j => S.getD j "") ∧
        c.start_pos = (first : Int) ∧ c.sequence_id = seq_id ∧
        c.is_noncontiguous = true := by
  refine ⟨?_, rfl, ?_⟩
  · rw [Nat.one_shiftLeft]
    calc 2 ^ S.length ≤ 2 ^ 20 := Nat.pow_le_pow_right (by decide) h
      _ < 2 ^ 31 := by decide
  · intro c hc
    unfold noncontiguous_calls at hc
    obtain ⟨i, hi, hfi⟩ := List.mem_filterMap.1 hc
    rw [List.mem_range'_1] at hi
    simp only at hfi
    split at hfi
    · cases hfi
      obtain ⟨hne, hsorted, hlt⟩ := mask_positions S i hi.1 (by omega)
      cases hpos : (List.range S.length).filter (fun j => i &&& (1 <<< j) ≠ 0) with
      | nil => exact absurd hpos hne
      | cons first rest =>
        rw [hpos] at hsorted hlt
        exact ⟨first, rest, hsorted, hlt, rfl, rfl, rfl, rfl⟩
    · cases hfi

/-- C21, for the sequence `[a, b, c]` with lengths 2 to 2: the three calls are the index
lists `[0,1]`, `[0,2]` and `[1,2]`. -/
theorem noncontiguous_calls_shape_witness :
    (["a", "b", "c"] : List String).length ≤ 20 ∧
    noncontiguous_calls 2 2 ["a", "b", "c"] 7 =
      [⟨["a", "b"], 7, 0, true⟩, ⟨["a", "c"], 7, 0, true⟩, ⟨["b", "c"], 7, 1, true⟩] ∧
    ∀ c ∈ noncontiguous_calls 2 2 ["a", "b", "c"] 7,
      ∃ first rest, (first :: rest).Pairwise (fun a b => a < b) ∧
        (∀ j ∈ first :: rest, j < min (["a", "b", "c"] : List String).length 10) ∧
        c.pattern = (first :: rest).map (fun j => (["a", "b", "c"] : List String).getD j "") ∧
        c.start_pos = (first : Int) ∧ c.sequence_id = 7 ∧
        c.is_noncontiguous = true :=
  ⟨by decide, by decide,
    (noncontiguous_calls_shape (AdvancedSubsequenceMiner.new 2 2) SubsequenceTrie.empty
      ["a", "b", "c"] 7 (by decide)).2.2⟩

/-! ## Bounds on the returned records -/

theorem mask_select_sublist (S : List String) (i : Nat) : (mask_select S i).Sublist S := by
  have hS : (List.range S.length).map (fun j => S.getD j "") = S := by
    have := map_getD_range' S S.length 0 (by omega)
    rw [← List.range_eq_range'] at this
    simpa using this
  unfold mask_select
  have hsub := (List.filter_sublist (p := fun j => i.testBit j) (List.range S.length)).map
    (fun j => S.getD j "")
  rw [hS] at hsub
  exact hsub

/-- Every call of `generate_subsequences` for a sequence inserts a sublist of the sequence
whose length is within the configured bounds. -/
theorem generate_calls_bounds {m : AdvancedSubsequenceMiner} (h0 : 0 ≤ m.min_length)
    {S : List String} {seq_id : Int} {c : InsertCall} (hc : c ∈ m.generate_calls S seq_id) :
    m.min_length ≤ (c.pattern.length : Int) ∧ (c.pattern.length : Int) ≤ m.max_length ∧
      c.pattern.Sublist S := by
  unfold AdvancedSubsequenceMiner.generate_calls at hc
  rcases List.mem_append.1 hc with hc1 | hc2
  · obtain ⟨hb1, hb2, -⟩ :=
      (contiguous_calls_of_nonneg m.min_length m.max_length S seq_id h0).2 c hc1
    refine ⟨hb1, le_trans hb2 (min_le_left _ _), ?_⟩
    unfold contiguous_calls at hc1
    obtain ⟨x, -, hy⟩ := List.mem_flatMap.1 hc1
    obtain ⟨start, -, rfl⟩ := List.mem_map.1 hy
    exact (List.take_sublist _ _).trans (List.drop_sublist _ _)
  · split at hc2
    · obtain ⟨i, -, -, hb1, hb2, rfl⟩ := mem_noncontiguous_calls.1 hc2
      exact ⟨hb1, hb2, mask_select_sublist S i⟩
    · cases hc2

/-- C22: on a fresh engine with `1 <= min_length` and any registered sequences, for every
`min_support` and filter, `mine_frequent_patterns` returns, and each record has a frequency
of at least `max(1, min_support)`, a length field equal to the number of its elements and
within `[min_length, max_length]`, and elements that form a sublist of a registered
sequence. -/
theorem record_bounds (min_len max_len : Int) (h1 : 1 ≤ min_len)
    (args : List (List String × Int)) (min_support : Int) (nco : Bool) :
    ∃ recs m1,
      ((AdvancedSubsequenceMiner.new min_len max_len).add_sequences
        args).mine_frequent_patterns min_support nco = .ok (recs, m1) ∧
      ∀ r ∈ recs, max 1 min_support ≤ r.frequency ∧
        r.length = (r.pattern.length : Int) ∧ min_len ≤ r.length ∧ r.length ≤ max_len ∧
        ∃ a ∈ args, r.pattern.Sublist a.1 := by
  obtain ⟨hmin, hmax, htrie, -, hdb⟩ :=
    add_sequences_fields args (AdvancedSubsequenceMiner.new min_len max_len)
  generalize (AdvancedSubsequenceMiner.new min_len max_len).add_sequences args = m at *
  have hm : 0 ≤ m.min_length := by
    rw [hmin]
    exact le_trans (by decide) h1
  have htrie2 : m.trie = SubsequenceTrie.empty := htrie
  have hdb2 : m.sequence_database.map (fun sd => sd.sequence) = args.map Prod.fst := by
    rw [hdb]
    simp [AdvancedSubsequenceMiner.new]
  have hmine := mine_frequent_patterns_ok m hm min_support nco
  rw [htrie2] at hmine
  refine ⟨_, _, hmine, ?_⟩
  intro r hr
  obtain ⟨⟨q, f, nc⟩, hmem, rfl⟩ := List.mem_map.1 hr
  obtain ⟨x, hw, he, hsup, -, hf, -⟩ :=
    (mem_get_frequent_patterns _ (distinct_labels_after_calls _) _ _ q f nc).1 hmem
  obtain ⟨hfreq, hend⟩ := node_after_calls hw
  have hq := hend.1 he
  have hpos : (1 : Int) ≤ f := by
    rw [hf, hfreq]
    have := (insert_count_pos_iff m.all_calls q).2 hq
    exact_mod_cast this
  obtain ⟨c, hc, hcq⟩ := List.mem_map.1 hq
  obtain ⟨sd, hsd, hc2⟩ := mem_all_calls.1 hc
  obtain ⟨hb1, hb2, hsub⟩ := generate_calls_bounds hm hc2
  obtain ⟨a, ha, has⟩ := sequence_mem_args hdb2 hsd
  have hcq2 : c.pattern = q := hcq
  rw [hcq2] at hb1 hb2 hsub
  have hmin2 : m.min_length = min_len := hmin
  have hmax2 : m.max_length = max_len := hmax
  rw [hmin2] at hb1
  rw [hmax2] at hb2
  rw [← has] at hsub
  exact ⟨max_le hpos (hf ▸ hsup), rfl, hb1, hb2, a, ha, hsub⟩

/-- C22, at the scenario engine with `min_support = 2`. -/
theorem record_bounds_witness :
    (1 : Int) ≤ 2 ∧ ∃ recs m1, scenario_engine.mine_frequent_patterns 2 false = .ok (recs, m1) ∧
      ∀ r ∈ recs, max 1 2 ≤ r.frequency ∧
        r.length = (r.pattern.length : Int) ∧ 2 ≤ r.length ∧ r.length ≤ 2 ∧
        ∃ a ∈ [((["a", "b", "c"] : List String), (-1 : Int)), (["a", "b", "d"], -1),
          (["a", "b", "c"], -1)], r.pattern.Sublist a.1 :=
  ⟨by decide, record_bounds 2 2 (by decide)
    [(["a", "b", "c"], -1), (["a", "b", "d"], -1), (["a", "b", "c"], -1)] 2 false⟩

end SubsequenceMiner
